import Mathlib

/-!
# netwrangler `util/layout.go`: the Layout validator

A shallow embedding of `src/util/layout.go` and theorems about it.

Modelling conventions

* Go `map[string]T` values are association lists read with `mapGet` (first
  binding wins) and written with `mapSet` (replace in place, else append).
  The key set is `mapKeys`.
* Go slices are Lean lists (a nil slice and an empty slice are both `[]`).
  Slices are values: two slices sharing a backing array are not modelled,
  except for the one place where it shows in the Layout (see
  `validateMember`). A `range` loop iterates over the list as it was when the
  loop was entered; in the owner loop of `Interface.validate`, which appends
  to and sorts `l.Child2Parent[child.Name]` while ranging over `otherNames`,
  this is what Go does whenever the append reallocates. When the append
  writes in place, the sort can change what the later iterations read; that
  changes the outcome only when the names involved are not all vlans, which
  needs a Layout whose keys are not names.
* `sort.Strings` orders strings bytewise; UTF-8 preserves code point order, so
  it is modelled as a sort by the lexicographic order of the character lists,
  which is the order of `String` (`String.le_iff_toList_le`).
* `log.Panicf` aborts the call: functions that can reach it return an
  `Outcome`, whose `panic` constructor stands for the abort.
* A pointer that may be nil is an `Option`; reading a field through a nil
  pointer is `Outcome.panic` as well.
* `Layout.cyclic` is recursive; the embedding recurses on a fuel argument and
  `Outcome.fuel` marks exhaustion (shown below to be unreachable with the fuel
  that `Layout.Validate` supplies).
* `for k := range l.Interfaces` visits the keys of a map in an unspecified
  order. `Layout.Validate` takes that order as its argument `order`.
-/

namespace util

/-! ## Maps, sorting, outcomes -/

/-- Lookup `m[k]` with the `ok` flag: `none` when `k` is not a key. -/
def mapGet {α : Type} : List (String × α) → String → Option α
  | [], _ => none
  | (k', v) :: rest, k => if k' = k then some v else mapGet rest k

/-- Assignment `m[k] = v`. -/
def mapSet {α : Type} : List (String × α) → String → α → List (String × α)
  | [], k, v => [(k, v)]
  | (k', v') :: rest, k, v =>
    if k' = k then (k, v) :: rest else (k', v') :: mapSet rest k v

/-- The keys of a map, each once. -/
def mapKeys {α : Type} (m : List (String × α)) : List String :=
  (m.map Prod.fst).dedup

/-- The function `sort.Strings`. -/
def sortStrings (l : List String) : List String :=
  List.insertionSort (fun a b => a.toList ≤ b.toList) l

/-- Result of a call that may abort: `panic` is `log.Panicf`, `fuel` is the
embedding running out of recursion fuel. -/
inductive Outcome (α : Type) where
  | ok (a : α)
  | panic
  | fuel
deriving DecidableEq, Repr

/-- A loop `for _, a := range as { s = f(s, a) }` whose body may abort. -/
def forEach {σ α : Type} (f : σ → α → Outcome σ) : σ → List α → Outcome σ
  | s, [] => .ok s
  | s, a :: as =>
    match f s a with
    | .ok s' => forEach f s' as
    | .panic => .panic
    | .fuel => .fuel

/-! ## Error accumulator -/

/-- An argument of a format string: a string (`%s`) or a string slice (`%v`). -/
inductive Arg where
  | str (s : String)
  | strs (l : List String)
deriving DecidableEq, Repr

/-- One collected message: the format string, its arguments, and the prefixes
of the accumulators it was merged through (innermost first). -/
structure Msg where
  scope : List String := []
  format : String
  args : List Arg := []
deriving DecidableEq, Repr

/-- Modelled from the spec: the accumulator type `Err` is declared outside
layout.go. Section 4.1: a collector keyed by a prefix, with append, merge,
is-empty and materialise operations. -/
structure Err where
  Prefix : String
  msgs : List Msg := []
deriving DecidableEq, Repr

/-- Modelled from the spec: `Err.Errorf` appends one formatted message and never
stops validation. -/
def Err.Errorf (e : Err) (format : String) (args : List Arg) : Err :=
  { e with msgs := e.msgs ++ [{ format := format, args := args }] }

/-- Modelled from the spec: `Err.Merge` adds the other accumulator's messages,
prefixed by the other accumulator's own prefix; merging "no error" adds
nothing. -/
def Err.Merge (e : Err) (other : Option Err) : Err :=
  match other with
  | none => e
  | some o =>
    { e with msgs := e.msgs ++ o.msgs.map (fun m => { m with scope := o.Prefix :: m.scope }) }

/-- Modelled from the spec: `Err.Empty`, the is-empty predicate. -/
def Err.Empty (e : Err) : Bool :=
  e.msgs.isEmpty

/-- Modelled from the spec: `Err.OrNil` returns "no error" (`none`) when empty,
else the accumulated error. -/
def Err.OrNil (e : Err) : Option Err :=
  if e.Empty then none else some e

/-! ## Data model -/

/-- Modelled from the spec: the IP value type is declared outside layout.go.
It wraps an address or CIDR range and exposes whether it is a range
(`IsCIDR`) and whether it is IPv4 (`IP.To4() != nil`). -/
structure IP where
  text : String := ""
  IsCIDR : Bool := false
  isV4 : Bool := true
deriving DecidableEq, Repr

/-- The struct `Route`. Pointer fields are options. -/
structure Route where
  From : Option IP := none
  To : Option IP := none
  Via : Option IP := none
  OnLink : Bool := false
  Metric : Int := 0
  Type_ : String := ""
  Scope : String := ""
  Table : Int := 0
deriving DecidableEq, Repr

/-- The struct `RoutePolicy`. -/
structure RoutePolicy where
  From : Option IP := none
  To : Option IP := none
  Table : Int := 0
  Priority : Int := 0
  FWMark : Int := 0
  TOS : Int := 0
deriving DecidableEq, Repr

/-- The struct `NSInfo`. `Network.validate` compares `Addresses` with nil, so
here the nil slice is `none` and a slice that is not nil, empty or not, is
`some`. -/
structure NSInfo where
  Search : List String := []
  Addresses : Option (List IP) := none
deriving DecidableEq, Repr

/-- The struct `Network`. -/
structure Network where
  Dhcp4 : Bool := false
  Dhcp6 : Bool := false
  DhcpIdentifier : String := ""
  AcceptRa : Bool := false
  Addresses : List IP := []
  Gateway4 : Option IP := none
  Gateway6 : Option IP := none
  Nameservers : Option NSInfo := none
  Routes : List Route := []
  RoutingPolicy : List RoutePolicy := []
deriving DecidableEq, Repr

/-- The struct `Interface`. `Type_` is the field `Type`; `CurrentHwAddr` is a
byte string; `Parameters` is never read by the validator. -/
structure Interface where
  Type_ : String := ""
  MatchID : String := ""
  Name : String := ""
  CurrentHwAddr : List Nat := []
  Optional : Bool := false
  Interfaces : List String := []
  Parameters : List (String × String) := []
  Network : Option Network := none
deriving DecidableEq, Repr

/-- The struct `Layout`. -/
structure Layout where
  Interfaces : List (String × Interface) := []
  Child2Parent : List (String × List String) := []
  Roots : List String := []
deriving DecidableEq, Repr

/-- The single-value map read `l.Interfaces[name]`: the zero `Interface` when
the key is absent. -/
def ifaceAt (ifs : List (String × Interface)) (name : String) : Interface :=
  (mapGet ifs name).getD {}

/-! ## Format strings of `Interface.validate` and `Layout.cyclic` -/

def fmtPhysicalChildren : String := "%s:%s must not refer to sub interfaces %v"
def fmtUndefined : String := "%s:%s refers to undefined sub interface %s"
def fmtNotPhysical : String := "%s:%s refers to %s:%s, which is not a physical interface."
def fmtCannotBuild : String := "%s:%s cannot be built on %s:%s"
def fmtAlreadyOwned : String :=
  "%s:%s is already owned by %s:%s, it canot be a member of %s:%s"
def fmtCycle : String := "%s: Cycle detected: %v"

/-! ## `Interface.validate` -/

/-- Body of the loop `for _, otherName := range otherNames` (layout.go 356-378)
for the interface `i` and its child `child`, on the state
`(l.Child2Parent, e)`. -/
def ownerStep (i child : Interface) (ifs : List (String × Interface))
    (st : List (String × List String) × Err) (otherName : String) :
    Outcome (List (String × List String) × Err) :=
  let other := ifaceAt ifs otherName
  if i.Type_ = "bridge" ∨ i.Type_ = "bond" then
    .ok (st.1, st.2.Errorf fmtAlreadyOwned
      [.str child.Type_, .str child.Name, .str other.Type_, .str other.Name,
       .str i.Type_, .str i.Name])
  else if i.Type_ = "vlan" then
    if other.Type_ ≠ "vlan" then
      .ok (st.1, st.2.Errorf fmtAlreadyOwned
        [.str child.Type_, .str child.Name, .str other.Type_, .str other.Name,
         .str i.Type_, .str i.Name])
    else
      .ok (mapSet st.1 child.Name
        (sortStrings (((mapGet st.1 child.Name).getD []) ++ [i.Name])), st.2)
  else
    .panic

/-- Ownership part of the child loop (layout.go 351-378), reached when the
child passed the type switch. -/
def claimChild (i child : Interface) (ifs : List (String × Interface))
    (st : List (String × List String) × Err) (name : String) :
    Outcome (List (String × List String) × Err) :=
  match mapGet st.1 name with
  | none => .ok (mapSet st.1 name [i.Name], st.2)
  | some otherNames => forEach (ownerStep i child ifs) st otherNames

/-- Body of the loop `for _, name := range i.Interfaces` (layout.go 326-379). -/
def childStep (i : Interface) (ifs : List (String × Interface))
    (st : List (String × List String) × Err) (name : String) :
    Outcome (List (String × List String) × Err) :=
  match mapGet ifs name with
  | none =>
    .ok (st.1, st.2.Errorf fmtUndefined [.str i.Type_, .str i.Name, .str name])
  | some child =>
    if i.Type_ = "bond" then
      if child.Type_ ≠ "physical" then
        .ok (st.1, st.2.Errorf fmtNotPhysical
          [.str i.Type_, .str i.Name, .str child.Type_, .str child.Name])
      else claimChild i child ifs st name
    else if i.Type_ = "bridge" then
      if child.Type_ = "bridge" then
        .ok (st.1, st.2.Errorf fmtCannotBuild
          [.str i.Type_, .str i.Name, .str child.Type_, .str child.Name])
      else claimChild i child ifs st name
    else if i.Type_ = "vlan" then
      if child.Type_ = "vlan" then
        .ok (st.1, st.2.Errorf fmtCannotBuild
          [.str i.Type_, .str i.Name, .str child.Type_, .str child.Name])
      else claimChild i child ifs st name
    else
      .panic

/-- The method `(i *Interface) validate(l *Layout) error`. Returns the receiver
as the call leaves it (its `Interfaces` sorted in place), the Layout as the
call leaves it, and the returned error. -/
def Interface.validate (i : Interface) (l : Layout) :
    Outcome (Interface × Layout × Option Err) :=
  let e : Err := { Prefix := i.Type_ ++ ":" ++ i.MatchID }
  if i.Type_ = "physical" then
    let e := if i.Interfaces.length > 0 then
        e.Errorf fmtPhysicalChildren [.str i.Type_, .str i.Name, .strs i.Interfaces]
      else e
    .ok (i, { l with Roots := l.Roots ++ [i.Name] }, e.OrNil)
  else
    let i := { i with Interfaces := sortStrings i.Interfaces }
    match forEach (childStep i l.Interfaces) (l.Child2Parent, e) i.Interfaces with
    | .ok (c2p, e) => .ok (i, { l with Child2Parent := c2p }, e.OrNil)
    | .panic => .panic
    | .fuel => .fuel

/-! ## `Layout.cyclic` and `Layout.Validate` -/

/-- The method `(l *Layout) cyclic(intf, working, clean, e)` on the state
`(clean, e)`; `clean` is a set, kept as a list of which only membership is
observed. The first argument is the recursion fuel. -/
def cyclic (c2p : List (String × List String)) :
    Nat → String → List String → List String × Err → Outcome (List String × Err)
  | 0, _, _, _ => .fuel
  | fuel + 1, intf, working, st =>
    if intf ∈ st.1 then .ok st
    else
      match mapGet c2p intf with
      | none => .ok (st.1 ++ working, st.2)
      | some next =>
        if intf ∈ working then
          .ok (st.1, st.2.Errorf fmtCycle [.str intf, .strs working])
        else
          forEach (fun s n => cyclic c2p fuel n (working ++ [intf]) s) st next

/-- Body of the loop `for _, k := range members` of `Layout.Validate`
(layout.go 473-476): `v` is a copy of the map entry, the error returned by
`v.validate(l)` is dropped, and the entry keeps sharing the backing array of
`v.Interfaces`, so it sees the list sorted. -/
def validateMember (l : Layout) (k : String) : Outcome Layout :=
  let v := ifaceAt l.Interfaces k
  match v.validate l with
  | .ok (v', l', _) => .ok { l' with Interfaces := mapSet l'.Interfaces k v' }
  | .panic => .panic
  | .fuel => .fuel

/-- The first half of `Layout.Validate` (layout.go 466-476): reset `Roots` and
`Child2Parent`, then validate every member in sorted key order. -/
def perInterfacePass (l : Layout) : Outcome Layout :=
  forEach validateMember { l with Roots := [], Child2Parent := [] }
    (sortStrings (mapKeys l.Interfaces))

/-- Fuel given to each top-level `cyclic` call: one more than the number of
keys of `Child2Parent`. -/
def cyclicFuel (c2p : List (String × List String)) : Nat :=
  (mapKeys c2p).length + 1

/-- The loop `for k := range l.Interfaces { l.cyclic(k, []string{}, clean, e) }`
(layout.go 480-483), visiting the keys in the order `order`. -/
def cyclePhase (c2p : List (String × List String)) (e : Err) (order : List String) :
    Outcome (List String × Err) :=
  forEach (fun s k => cyclic c2p (cyclicFuel c2p) k [] s) ([], e) order

/-- The method `(l *Layout) Validate() error`: the Layout it leaves and the
error it returns. `order` is the order in which the second `range` over
`l.Interfaces` visits the keys. -/
def Layout.Validate (l : Layout) (order : List String) : Outcome (Layout × Option Err) :=
  let e : Err := { Prefix := "layout" }
  match perInterfacePass l with
  | .ok l' =>
    if !e.Empty then .ok (l', some e)
    else
      match cyclePhase l'.Child2Parent e order with
      | .ok (_, e') => .ok ({ l' with Roots := sortStrings l'.Roots }, e'.OrNil)
      | .panic => .panic
      | .fuel => .fuel
  | .panic => .panic
  | .fuel => .fuel

/-! ## `Route.validate`, `RoutePolicy.validate`, the `Network` methods -/

def fmtViaCIDR : String := "Via must be a single IP address, not %s"
def fmtUnicast : String := "unicast routes require \x27to\x27 and \x27via\x27"
def fmtRouteTo : String := "%s routes require \x27to\x27"
def fmtPolicy : String := "Route policy must include either a From or a To"
def fmtGateway4 : String := "Gateway4 %s is not an IPv4 address"
def fmtGateway6 : String := "Gateway6 %s is not an IPv6 address"

/-- The method `(r *Route) validate() error`, for a non-nil receiver. -/
def Route.validate (r : Route) : Option Err :=
  let e : Err := { Prefix := "Route" }
  let e := match r.Via with
    | some via => if via.IsCIDR then e.Errorf fmtViaCIDR [.str via.text] else e
    | none => e
  let e := if r.Type_ = "unicast" then
      if r.To = none ∨ r.Via = none then e.Errorf fmtUnicast [] else e
    else
      if r.To = none then e.Errorf fmtRouteTo [.str r.Type_] else e
  e.OrNil

/-- The method `(r *RoutePolicy) validate() error`, for a non-nil receiver. -/
def RoutePolicy.validate (r : RoutePolicy) : Option Err :=
  let e : Err := { Prefix := "RoutePolicy" }
  let e := if r.From.isSome = r.To.isSome then e.Errorf fmtPolicy [] else e
  e.OrNil

/-- The method `(n *Network) configure() bool`; the receiver may be nil. -/
def Network.configure (n : Option Network) : Bool :=
  n.isSome

/-- The method `(n *Network) SetupStaticOnly() bool`. The operator `&&` does
not evaluate its right operand when the left one is false; reading a field
of a nil receiver is a panic. -/
def Network.SetupStaticOnly (n : Option Network) : Outcome Bool :=
  if Network.configure n then
    match n with
    | none => .panic
    | some v => .ok (!(v.Dhcp4 || v.Dhcp6) && decide (v.Addresses.length > 0))
  else .ok false

/-- The method `(n *Network) Configure() bool`. -/
def Network.Configure (n : Option Network) : Outcome Bool :=
  if Network.configure n then
    match n with
    | none => .panic
    | some v => .ok (v.Dhcp4 || v.Dhcp6 || decide (v.Addresses.length ≠ 0))
  else .ok false

/-- The method `(n *Network) SetupDHCPOnly() bool`. -/
def Network.SetupDHCPOnly (n : Option Network) : Outcome Bool :=
  if Network.configure n then
    match n with
    | none => .panic
    | some v => .ok ((v.Dhcp4 || v.Dhcp6) && decide (v.Addresses.length = 0))
  else .ok false

/-- The method `(n *Network) validate() error`, for a non-nil receiver. The
helpers `ValidateStrIn` and `ValidateIPList` are declared outside layout.go
and are taken as the parameters `strIn` and `ipList`, functions from the
accumulator to the accumulator. `n.Nameservers.Addresses` reads a field
through the pointer `n.Nameservers`: a panic when the pointer is nil. The
normalisation of a nil `Addresses` to an empty slice is invisible here. -/
def Network.validate (strIn : Err → String → String → List String → Err)
    (ipList : Err → String → List IP → Bool → Err) (n : Network) : Outcome (Option Err) :=
  let e : Err := { Prefix := "network" }
  let e := strIn e "dhcp-identifier" n.DhcpIdentifier ["mac", ""]
  let e := ipList e "addresses" n.Addresses true
  let e := match n.Gateway4 with
    | some g => if !g.isV4 then e.Errorf fmtGateway4 [.str g.text] else e
    | none => e
  let e := match n.Gateway6 with
    | some g => if g.isV4 then e.Errorf fmtGateway6 [.str g.text] else e
    | none => e
  match n.Nameservers with
  | none => .panic
  | some ns =>
    let e := match ns.Addresses with
      | some addrs => ipList e "nameservers" addrs false
      | none => e
    let e := n.Routes.foldl (fun e route => e.Merge route.validate) e
    let e := n.RoutingPolicy.foldl (fun e rp => e.Merge rp.validate) e
    .ok e.OrNil

/-! ## Specification vocabulary -/

/-- Edge of the ownership graph induced by `Child2Parent`: `b` is listed in
`Child2Parent[a]`. -/
def Owns (c2p : List (String × List String)) (a b : String) : Prop :=
  ∃ ps, mapGet c2p a = some ps ∧ b ∈ ps

/-- The ownership graph has no cycle: no name reaches itself along one or
more edges. -/
def Acyclic (c2p : List (String × List String)) : Prop :=
  ∀ a, ¬ Relation.TransGen (Owns c2p) a a

/-- Every key of `Interfaces` is the `Name` of the interface stored under it. -/
def KeysAreNames (ifs : List (String × Interface)) : Prop :=
  ∀ k i, mapGet ifs k = some i → i.Name = k

/-- Exclusive owners are sole owners: an owner list with a bond or bridge in it
has length one, and a longer list holds vlans only. -/
def SoleExclusiveOwner (l : Layout) : Prop :=
  ∀ C ps, mapGet l.Child2Parent C = some ps →
    (∀ p ∈ ps, (ifaceAt l.Interfaces p).Type_ = "bond" ∨
        (ifaceAt l.Interfaces p).Type_ = "bridge" → ps.length = 1) ∧
    (1 < ps.length → ∀ p ∈ ps, (ifaceAt l.Interfaces p).Type_ = "vlan")

/-- Every owner list is a singleton or holds names of vlans only (types read
from `ifs`). -/
def OwnersOk (ifs : List (String × Interface)) (c2p : List (String × List String)) : Prop :=
  ∀ C ps, mapGet c2p C = some ps →
    (∃ x, ps = [x]) ∨ ∀ p ∈ ps, (ifaceAt ifs p).Type_ = "vlan"

/-- The ownership-conflict message that `i` records about `child` and its
present owner `other`. -/
def conflictMsg (child other i : Interface) : Msg :=
  { format := fmtAlreadyOwned,
    args := [.str child.Type_, .str child.Name, .str other.Type_, .str other.Name,
             .str i.Type_, .str i.Name] }

/-- The undefined-reference message that `i` records about `name`. -/
def undefinedMsg (i : Interface) (name : String) : Msg :=
  { format := fmtUndefined, args := [.str i.Type_, .str i.Name, .str name] }

/-- The name `name` is defined and of a type that `i` may own. -/
def Legal (i : Interface) (ifs : List (String × Interface)) (name : String) : Prop :=
  ∃ child, mapGet ifs name = some child ∧
    (i.Type_ = "bond" → child.Type_ = "physical") ∧
    (i.Type_ = "bridge" → child.Type_ ≠ "bridge") ∧
    (i.Type_ = "vlan" → child.Type_ ≠ "vlan")

/-- The child `child` is of a type that `i` may not own. -/
def Illegal (i child : Interface) : Prop :=
  (i.Type_ = "bond" ∧ child.Type_ ≠ "physical") ∨
  (i.Type_ = "bridge" ∧ child.Type_ = "bridge") ∨
  (i.Type_ = "vlan" ∧ child.Type_ = "vlan")

/-- The child-type message that `i` records about `child`. -/
def typeMsg (i child : Interface) : Msg :=
  { format := if i.Type_ = "bond" then fmtNotPhysical else fmtCannotBuild,
    args := [.str i.Type_, .str i.Name, .str child.Type_, .str child.Name] }

/-! ## Concrete layouts -/

/-- One bond whose only child is not defined. -/
def layoutDangling : Layout :=
  { Interfaces := [
      ("b0", { Type_ := "bond", MatchID := "b0", Name := "b0", Interfaces := ["x"] })] }

/-- A bridge owning a vlan that is built on the bridge, which also carries a
second vlan: `br0 -> vl1 -> br0` is an ownership cycle, and `br0` has the
further owner `vl0`, which has no owner. -/
def layoutCycle : Layout :=
  { Interfaces := [
      ("br0", { Type_ := "bridge", MatchID := "br0", Name := "br0", Interfaces := ["vl1"] }),
      ("vl0", { Type_ := "vlan", MatchID := "vl0", Name := "vl0", Interfaces := ["br0"] }),
      ("vl1", { Type_ := "vlan", MatchID := "vl1", Name := "vl1", Interfaces := ["br0"] })] }

/-- The acyclic diamond: physical `C`, vlans `V1` and `V2` both built on `C`. -/
def layoutDiamond : Layout :=
  { Interfaces := [
      ("C", { Type_ := "physical", MatchID := "C", Name := "C", CurrentHwAddr := [2] }),
      ("V1", { Type_ := "vlan", MatchID := "V1", Name := "V1", Interfaces := ["C"] }),
      ("V2", { Type_ := "vlan", MatchID := "V2", Name := "V2", Interfaces := ["C"] })] }

/-- One bond that declares no children. -/
def layoutChildlessBond : Layout :=
  { Interfaces := [("b0", { Type_ := "bond", MatchID := "b0", Name := "b0" })] }

/-- A physical interface with no children and no hardware address. -/
def physicalNoHwAddr : Interface :=
  { Type_ := "physical", MatchID := "eth0", Name := "eth0" }

/-- Three vlans built on one physical interface. -/
def layoutThreeVlans : Layout :=
  { Interfaces := [
      ("eth0", { Type_ := "physical", MatchID := "eth0", Name := "eth0", CurrentHwAddr := [2] }),
      ("v1", { Type_ := "vlan", MatchID := "v1", Name := "v1", Interfaces := ["eth0"] }),
      ("v2", { Type_ := "vlan", MatchID := "v2", Name := "v2", Interfaces := ["eth0"] }),
      ("v3", { Type_ := "vlan", MatchID := "v3", Name := "v3", Interfaces := ["eth0"] })] }

/-- Two vlans on a physical interface, the second stored under key `b` but
named `z`, and a bond stored under key `z`. -/
def layoutKeyNotName : Layout :=
  { Interfaces := [
      ("C", { Type_ := "physical", MatchID := "C", Name := "C", CurrentHwAddr := [2] }),
      ("a", { Type_ := "vlan", MatchID := "a", Name := "a", Interfaces := ["C"] }),
      ("b", { Type_ := "vlan", MatchID := "b", Name := "z", Interfaces := ["C"] }),
      ("z", { Type_ := "bond", MatchID := "z", Name := "z" })] }

/-- A bond enslaving a physical interface that carries a DHCP configuration. -/
def layoutEnslaved : Layout :=
  { Interfaces := [
      ("b0", { Type_ := "bond", MatchID := "b0", Name := "b0", Interfaces := ["eth0"] }),
      ("eth0", { Type_ := "physical", MatchID := "eth0", Name := "eth0", CurrentHwAddr := [2],
                 Network := some { Dhcp4 := true } })] }

/-- A Layout state in which the physical interface stored under `eth0` is named
`eth9`, `eth0` is already owned by the vlan `v0`, and no interface is stored
under `eth9`. -/
def layoutShadow : Layout :=
  { Interfaces := [
      ("eth0", { Type_ := "physical", MatchID := "eth0", Name := "eth9", CurrentHwAddr := [2] }),
      ("v0", { Type_ := "vlan", MatchID := "v0", Name := "v0", Interfaces := ["eth0"] }),
      ("v1", { Type_ := "vlan", MatchID := "v1", Name := "v1", Interfaces := ["eth0", "eth9"] })],
    Child2Parent := [("eth0", ["v0"])],
    Roots := ["eth9"] }

/-- The vlan of `layoutShadow` that lists the undefined name `eth9`. -/
def vlanShadow : Interface :=
  { Type_ := "vlan", MatchID := "v1", Name := "v1", Interfaces := ["eth0", "eth9"] }

/-- A vlan listing a vlan child and, twice, the physical `eth0`. -/
def vlanTwice : Interface :=
  { Type_ := "vlan", MatchID := "v1", Name := "v1", Interfaces := ["v0", "eth0", "eth0"] }

/-- The Layout state in which `vlanTwice` is validated: nothing is owned yet. -/
def layoutTwice : Layout :=
  { Interfaces := [
      ("eth0", { Type_ := "physical", MatchID := "eth0", Name := "eth0", CurrentHwAddr := [2] }),
      ("v0", { Type_ := "vlan", MatchID := "v0", Name := "v0" }),
      ("v1", vlanTwice)] }

/-- A bond listing the physical `eth0` twice. -/
def bondTwice : Interface :=
  { Type_ := "bond", MatchID := "b0", Name := "b0", Interfaces := ["eth0", "eth0"] }

/-- The Layout state in which `bondTwice` is validated: nothing is owned yet. -/
def layoutBondTwice : Layout :=
  { Interfaces := [
      ("b0", bondTwice),
      ("eth0", { Type_ := "physical", MatchID := "eth0", Name := "eth0", CurrentHwAddr := [2] })] }

/-- The bridge `br0` owns the vlan `vl1`, which is built on `br0` (a cycle);
`br0` also carries the vlan `vl0`, which the bridge `br9` owns. -/
def layoutOrder : Layout :=
  { Interfaces := [
      ("br0", { Type_ := "bridge", MatchID := "br0", Name := "br0", Interfaces := ["vl1"] }),
      ("br9", { Type_ := "bridge", MatchID := "br9", Name := "br9", Interfaces := ["vl0"] }),
      ("vl0", { Type_ := "vlan", MatchID := "vl0", Name := "vl0", Interfaces := ["br0"] }),
      ("vl1", { Type_ := "vlan", MatchID := "vl1", Name := "vl1", Interfaces := ["br0"] })] }

/-- An interface of the unknown type `dummy` built on a physical interface. -/
def layoutUnknownType : Layout :=
  { Interfaces := [
      ("d0", { Type_ := "dummy", MatchID := "d0", Name := "d0", Interfaces := ["eth0"] }),
      ("eth0", { Type_ := "physical", MatchID := "eth0", Name := "eth0", CurrentHwAddr := [2] })] }

/-- A vlan listing, once each, the key `eth0` and the vlan `v0`. -/
def vlanOffKey : Interface :=
  { Type_ := "vlan", MatchID := "v2", Name := "v2", Interfaces := ["eth0", "v0"] }

/-- A Layout state in which the physical interface stored under `eth0` is named
`v0`, the name of the vlan stored under `v0`, and `eth0` is owned by the vlan
`v1`. -/
def layoutOffKey : Layout :=
  { Interfaces := [
      ("eth0", { Type_ := "physical", MatchID := "eth0", Name := "v0", CurrentHwAddr := [2] }),
      ("v0", { Type_ := "vlan", MatchID := "v0", Name := "v0" }),
      ("v1", { Type_ := "vlan", MatchID := "v1", Name := "v1", Interfaces := ["eth0"] }),
      ("v2", vlanOffKey)],
    Child2Parent := [("eth0", ["v1"])],
    Roots := ["v0"] }

/-- A vlan listing, once each, the keys `eth0` and `eth1` and the vlan `v0`. -/
def vlanOffKeyLegal : Interface :=
  { Type_ := "vlan", MatchID := "v2", Name := "v2", Interfaces := ["eth0", "eth1", "v0"] }

/-- A Layout state in which the physical interface stored under `eth0` is named
`eth1` and is owned by the vlan `v1`, while the physical interface stored
under `eth1` is unowned. -/
def layoutOffKeyLegal : Layout :=
  { Interfaces := [
      ("eth0", { Type_ := "physical", MatchID := "eth0", Name := "eth1", CurrentHwAddr := [2] }),
      ("eth1", { Type_ := "physical", MatchID := "eth1", Name := "eth1", CurrentHwAddr := [3] }),
      ("v0", { Type_ := "vlan", MatchID := "v0", Name := "v0" }),
      ("v1", { Type_ := "vlan", MatchID := "v1", Name := "v1", Interfaces := ["eth0"] }),
      ("v2", vlanOffKeyLegal)],
    Child2Parent := [("eth0", ["v1"])],
    Roots := ["eth1", "eth1"] }

/-! ## Lemmas: maps, sorting, loops -/

theorem mapGet_mapSet_self {α : Type} (m : List (String × α)) (k : String) (v : α) :
    mapGet (mapSet m k v) k = some v := by
  induction m with
  | nil => simp [mapSet, mapGet]
  | cons hd tl ih =>
    obtain ⟨k', v'⟩ := hd
    by_cases h : k' = k
    · simp [mapSet, mapGet, h]
    · simp [mapSet, mapGet, h, ih]

theorem mapGet_mapSet_ne {α : Type} (m : List (String × α)) (k p : String) (v : α)
    (h : p ≠ k) : mapGet (mapSet m k v) p = mapGet m p := by
  induction m with
  | nil => simp [mapSet, mapGet, Ne.symm h]
  | cons hd tl ih =>
    obtain ⟨k', v'⟩ := hd
    by_cases hk : k' = k
    · subst hk
      simp [mapSet, mapGet, Ne.symm h]
    · by_cases hp : k' = p
      · subst hp
        simp [mapSet, mapGet, hk]
      · simp [mapSet, mapGet, hk, hp, ih]

theorem mapGet_some_mem_keys {α : Type} (m : List (String × α)) (k : String) (v : α)
    (h : mapGet m k = some v) : k ∈ mapKeys m := by
  induction m with
  | nil => simp [mapGet] at h
  | cons hd tl ih =>
    obtain ⟨k', v'⟩ := hd
    by_cases hk : k' = k
    · simp [mapKeys, hk]
    · simp only [mapGet, hk, if_false] at h
      have := ih h
      simp only [mapKeys, List.mem_dedup, List.map_cons, List.mem_cons] at this ⊢
      exact Or.inr this

theorem mem_keys_mapGet {α : Type} (m : List (String × α)) (k : String)
    (h : k ∈ mapKeys m) : ∃ v, mapGet m k = some v := by
  induction m with
  | nil => simp [mapKeys] at h
  | cons hd tl ih =>
    obtain ⟨k', v'⟩ := hd
    by_cases hk : k' = k
    · exact ⟨v', by simp [mapGet, hk]⟩
    · simp only [mapKeys, List.mem_dedup, List.map_cons, List.mem_cons] at h ih
      rcases h with h | h
      · exact absurd h.symm hk
      · obtain ⟨v, hv⟩ := ih h
        exact ⟨v, by simp [mapGet, hk, hv]⟩

theorem mem_sortStrings (l : List String) (a : String) : a ∈ sortStrings l ↔ a ∈ l :=
  (List.perm_insertionSort _ l).mem_iff

theorem forEach_append {σ α : Type} (f : σ → α → Outcome σ) (xs ys : List α) (s : σ) :
    forEach f s (xs ++ ys) =
      match forEach f s xs with
      | .ok s' => forEach f s' ys
      | .panic => .panic
      | .fuel => .fuel := by
  induction xs generalizing s with
  | nil => simp [forEach]
  | cons x xs ih =>
    simp only [List.cons_append, forEach]
    cases f s x with
    | ok s' => simpa using ih s'
    | panic => rfl
    | fuel => rfl

/-- A loop invariant kept by every step that returns is kept by the loop. -/
theorem forEach_inv {σ α : Type} (f : σ → α → Outcome σ) (P : σ → Prop) (as : List α)
    (hstep : ∀ s a s', a ∈ as → P s → f s a = .ok s' → P s') :
    ∀ s s', P s → forEach f s as = .ok s' → P s' := by
  induction as with
  | nil =>
    intro s s' hs h
    simp only [forEach, Outcome.ok.injEq] at h
    exact h ▸ hs
  | cons a as ih =>
    intro s s' hs h
    simp only [forEach] at h
    cases hfa : f s a with
    | ok s1 =>
      rw [hfa] at h
      exact ih (fun s a s' ha => hstep s a s' (List.mem_cons_of_mem _ ha)) s1 s'
        (hstep s a s1 (List.mem_cons_self _ _) hs hfa) h
    | panic => rw [hfa] at h; cases h
    | fuel => rw [hfa] at h; cases h

/-- A loop whose every step returns and keeps the invariant returns and keeps
the invariant. -/
theorem forEach_ok {σ α : Type} (f : σ → α → Outcome σ) (P : σ → Prop) (as : List α)
    (hstep : ∀ s a, a ∈ as → P s → ∃ s', f s a = .ok s' ∧ P s') :
    ∀ s, P s → ∃ s', forEach f s as = .ok s' ∧ P s' := by
  induction as with
  | nil => intro s hs; exact ⟨s, rfl, hs⟩
  | cons a as ih =>
    intro s hs
    obtain ⟨s1, h1, hp1⟩ := hstep s a (List.mem_cons_self _ _) hs
    obtain ⟨s2, h2, hp2⟩ := ih (fun s a ha => hstep s a (List.mem_cons_of_mem _ ha)) s1 hp1
    exact ⟨s2, by simp only [forEach, h1, h2], hp2⟩

/-! ## Lemmas: cycle detection -/

/-- Enough fuel: with a duplicate-free working path inside the key set and
more fuel than keys left to visit, `cyclic` returns. -/
theorem cyclic_returns (c2p : List (String × List String)) :
    ∀ (fuel : Nat) (intf : String) (working : List String) (st : List String × Err),
      working.Nodup → (∀ w ∈ working, w ∈ mapKeys c2p) →
      (mapKeys c2p).length < fuel + working.length →
      ∃ r, cyclic c2p fuel intf working st = .ok r := by
  intro fuel
  induction fuel with
  | zero =>
    intro intf working st hnd hsub hlen
    have hle : working.length ≤ (mapKeys c2p).length :=
      (List.subperm_of_subset hnd hsub).length_le
    omega
  | succ n ih =>
    intro intf working st hnd hsub hlen
    simp only [cyclic]
    by_cases hclean : intf ∈ st.1
    · exact ⟨st, by simp [hclean]⟩
    · simp only [hclean, if_false]
      cases hget : mapGet c2p intf with
      | none => exact ⟨_, rfl⟩
      | some next =>
        by_cases hw : intf ∈ working
        · exact ⟨(st.1, st.2.Errorf fmtCycle [.str intf, .strs working]), by simp [hw]⟩
        · simp only [hw, if_false]
          have hnd' : (working ++ [intf]).Nodup := by
            rw [List.nodup_append]
            refine ⟨hnd, List.nodup_singleton _, ?_⟩
            intro a ha hb
            rw [List.mem_singleton] at hb
            exact hw (hb ▸ ha)
          have hsub' : ∀ w ∈ working ++ [intf], w ∈ mapKeys c2p := by
            intro w hmem
            rcases List.mem_append.mp hmem with h | h
            · exact hsub w h
            · rw [List.mem_singleton] at h
              exact h ▸ mapGet_some_mem_keys c2p intf next hget
          have hlen' : (mapKeys c2p).length < n + (working ++ [intf]).length := by
            simp only [List.length_append, List.length_singleton]
            omega
          obtain ⟨r, hr, _⟩ := forEach_ok
            (fun s m => cyclic c2p n m (working ++ [intf]) s) (fun _ => True) next
            (fun s m _ _ => by
              obtain ⟨r, hr⟩ := ih m (working ++ [intf]) s hnd' hsub' hlen'
              exact ⟨r, hr, trivial⟩) st trivial
          exact ⟨r, hr⟩

/-- The cycle phase returns for every visiting order. -/
theorem cyclePhase_returns (c2p : List (String × List String)) (e : Err)
    (order : List String) : ∃ r, cyclePhase c2p e order = .ok r := by
  obtain ⟨r, hr, _⟩ := forEach_ok
    (fun s k => cyclic c2p (cyclicFuel c2p) k [] s) (fun _ => True) order
    (fun s k _ _ => by
      obtain ⟨r, hr⟩ := cyclic_returns c2p (cyclicFuel c2p) k [] s List.nodup_nil
        (fun w hw => by simp at hw) (by simp [cyclicFuel])
      exact ⟨r, hr, trivial⟩) ([], e) trivial
  exact ⟨r, hr⟩

/-- Once the per-interface pass has returned, `Layout.Validate` returns, for
every visiting order, the Layout of the pass with `Roots` sorted. -/
theorem Validate_of_pass (l l1 : Layout) (order : List String)
    (hpass : perInterfacePass l = .ok l1) :
    ∃ r, cyclePhase l1.Child2Parent { Prefix := "layout" } order = .ok r ∧
      l.Validate order = .ok ({ l1 with Roots := sortStrings l1.Roots }, r.2.OrNil) := by
  obtain ⟨r, hr⟩ := cyclePhase_returns l1.Child2Parent { Prefix := "layout" } order
  refine ⟨r, hr, ?_⟩
  simp only [Layout.Validate, hpass, hr]
  rfl

/-- What `Layout.Validate` returned comes from the per-interface pass. -/
theorem pass_of_Validate (l l' : Layout) (order : List String) (err : Option Err)
    (h : l.Validate order = .ok (l', err)) :
    ∃ l1, perInterfacePass l = .ok l1 ∧ l' = { l1 with Roots := sortStrings l1.Roots } := by
  cases hpass : perInterfacePass l with
  | ok l1 =>
    obtain ⟨r, _, hv⟩ := Validate_of_pass l l1 order hpass
    rw [hv] at h
    simp only [Outcome.ok.injEq, Prod.mk.injEq] at h
    exact ⟨l1, rfl, h.1.symm⟩
  | panic => simp [Layout.Validate, hpass] at h
  | fuel => simp [Layout.Validate, hpass] at h

/-- With no `Child2Parent` entry at all, the cycle phase records nothing. -/
theorem cyclePhase_nil (e : Err) (order : List String) :
    ∃ clean, cyclePhase [] e order = .ok (clean, e) := by
  obtain ⟨r, hr, hp⟩ := forEach_ok
    (fun s k => cyclic [] (cyclicFuel []) k [] s) (fun s => s.2 = e) order
    (fun s k _ hs => by
      by_cases hc : k ∈ s.1
      · exact ⟨s, by simp [cyclic, cyclicFuel, mapKeys, hc], hs⟩
      · exact ⟨(s.1 ++ [], s.2), by simp [cyclic, cyclicFuel, mapKeys, hc, mapGet], hs⟩)
    ([], e) rfl
  exact ⟨r.1, by rw [cyclePhase, hr, ← hp]⟩

/-- In an acyclic ownership graph `cyclic` records no error, whatever the
fuel: every name on the working path reaches the visited name. -/
theorem cyclic_keeps_errors (c2p : List (String × List String)) (hac : Acyclic c2p) :
    ∀ (fuel : Nat) (intf : String) (working : List String) (st r : List String × Err),
      (∀ w ∈ working, Relation.TransGen (Owns c2p) w intf) →
      cyclic c2p fuel intf working st = .ok r → r.2 = st.2 := by
  intro fuel
  induction fuel with
  | zero => intro intf working st r _ h; simp [cyclic] at h
  | succ n ih =>
    intro intf working st r hpath h
    simp only [cyclic] at h
    by_cases hclean : intf ∈ st.1
    · simp only [hclean, if_true, Outcome.ok.injEq] at h
      rw [← h]
    · simp only [hclean, if_false] at h
      cases hget : mapGet c2p intf with
      | none =>
        simp only [hget, Outcome.ok.injEq] at h
        rw [← h]
      | some next =>
        simp only [hget] at h
        by_cases hw : intf ∈ working
        · exact absurd (hpath intf hw) (hac intf)
        · simp only [hw, if_false] at h
          refine forEach_inv (fun s m => cyclic c2p n m (working ++ [intf]) s)
            (fun s => s.2 = st.2) next ?_ st r rfl h
          intro s m s' hm hs hstep
          have hedge : Owns c2p intf m := ⟨next, hget, hm⟩
          have := ih m (working ++ [intf]) s s' (fun w hmem => by
            rcases List.mem_append.mp hmem with hmem | hmem
            · exact Relation.TransGen.tail (hpath w hmem) hedge
            · rw [List.mem_singleton] at hmem
              exact hmem ▸ Relation.TransGen.single hedge) hstep
          exact this.trans hs

/-- An acyclic `Child2Parent` left by the per-interface pass makes the cycle
phase end with an empty accumulator and `Layout.Validate` return no error. -/
theorem Validate_of_pass_acyclic (l l1 : Layout) (order : List String)
    (hpass : perInterfacePass l = .ok l1) (hac : Acyclic l1.Child2Parent) :
    (∃ clean, cyclePhase l1.Child2Parent { Prefix := "layout" } order =
        .ok (clean, { Prefix := "layout" })) ∧
      l.Validate order = .ok ({ l1 with Roots := sortStrings l1.Roots }, none) := by
  obtain ⟨r, hr, hv⟩ := Validate_of_pass l l1 order hpass
  have hkeep : r.2 = { Prefix := "layout" } :=
    forEach_inv (fun s k => cyclic l1.Child2Parent (cyclicFuel l1.Child2Parent) k [] s)
      (fun s => s.2 = { Prefix := "layout" }) order
      (fun s k s' _ hs hstep => by
        have := cyclic_keeps_errors l1.Child2Parent hac _ k [] s s'
          (fun w hw => by simp at hw) hstep
        exact this.trans hs) ([], { Prefix := "layout" }) r rfl hr
  refine ⟨⟨r.1, ?_⟩, ?_⟩
  · rw [hr, ← hkeep]
  · rw [hv, hkeep]
    rfl

/-- A graph whose edge targets have no entry of their own is acyclic. -/
theorem acyclic_of_leaves (c2p : List (String × List String))
    (h : ∀ a ps b, mapGet c2p a = some ps → b ∈ ps → mapGet c2p b = none) :
    Acyclic c2p := by
  intro a hcyc
  obtain ⟨b, ⟨ps, hps, hb⟩, hrest⟩ := Relation.TransGen.head'_iff.mp hcyc
  have hnone := h a ps b hps hb
  rcases Relation.ReflTransGen.cases_head hrest with heq | ⟨c, ⟨qs, hqs, _⟩, _⟩
  · rw [heq, hps] at hnone
    cases hnone
  · rw [hqs] at hnone
    cases hnone

/-- One entry whose owners do not include its key is an acyclic graph. -/
theorem acyclic_single (c : String) (ps : List String) (h : c ∉ ps) :
    Acyclic [(c, ps)] := by
  apply acyclic_of_leaves
  intro a qs b hqs hb
  by_cases ha : c = a
  · simp only [mapGet, ha, if_true, Option.some.injEq] at hqs
    subst hqs
    have hcb : ¬ c = b := fun hcb => h (hcb ▸ hb)
    simp [mapGet, hcb]
  · simp [mapGet, ha] at hqs

/-! ## Lemmas: the child loop -/

/-- A loop whose steps all return and keep `P` reaches, at the element `a`, a
state with `Q`, which later steps keep. -/
theorem forEach_reach {σ α : Type} (f : σ → α → Outcome σ) (as : List α) (a : α)
    (ha : a ∈ as) (P Q : σ → Prop)
    (hP : ∀ s x, x ∈ as → P s → ∃ s', f s x = .ok s' ∧ P s')
    (hPQ : ∀ s s', P s → f s a = .ok s' → Q s')
    (hQ : ∀ s x s', x ∈ as → Q s → f s x = .ok s' → Q s') :
    ∀ s, P s → ∃ s', forEach f s as = .ok s' ∧ P s' ∧ Q s' := by
  intro s hs
  obtain ⟨pre, post, rfl⟩ := List.append_of_mem ha
  obtain ⟨s1, h1, hp1⟩ := forEach_ok f P pre
    (fun s x hx => hP s x (List.mem_append_left _ hx)) s hs
  obtain ⟨s2, h2, hp2⟩ := hP s1 a ha hp1
  have hq2 : Q s2 := hPQ s1 s2 hp1 h2
  obtain ⟨s3, h3, hp3, hq3⟩ := forEach_ok f (fun s => P s ∧ Q s) post
    (fun s x hx hpq => by
      have hmem : x ∈ pre ++ a :: post :=
        List.mem_append_right _ (List.mem_cons_of_mem _ hx)
      obtain ⟨s', hs', hp'⟩ := hP s x hmem hpq.1
      exact ⟨s', hs', hp', hQ s x s' hmem hpq.2 hs'⟩) s2 ⟨hp2, hq2⟩
  refine ⟨s3, ?_, hp3, hq3⟩
  rw [forEach_append, h1]
  simp only [forEach, h2, h3]

theorem mem_Errorf (e : Err) (format : String) (args : List Arg) (m : Msg)
    (h : m ∈ e.msgs) : m ∈ (e.Errorf format args).msgs := by
  simp [Err.Errorf, h]

theorem OrNil_of_mem (e : Err) (m : Msg) (h : m ∈ e.msgs) : e.OrNil = some e := by
  cases hm : e.msgs with
  | nil => rw [hm] at h; cases h
  | cons a as => simp [Err.OrNil, Err.Empty, hm]

/-- For a bond or bridge every owner step records the conflict and leaves
`Child2Parent` alone. -/
theorem ownerStep_exclusive (i child : Interface) (ifs : List (String × Interface))
    (st : List (String × List String) × Err) (o : String)
    (h : i.Type_ = "bond" ∨ i.Type_ = "bridge") :
    ownerStep i child ifs st o =
      .ok (st.1, st.2.Errorf fmtAlreadyOwned (conflictMsg child (ifaceAt ifs o) i).args) := by
  have h' : i.Type_ = "bridge" ∨ i.Type_ = "bond" := h.symm
  unfold ownerStep
  rw [if_pos h']
  rfl

theorem not_exclusive_of_vlan (i : Interface) (h : i.Type_ = "vlan") :
    ¬ (i.Type_ = "bridge" ∨ i.Type_ = "bond") := by
  rw [h]
  decide

/-- A vlan meeting a vlan owner appends its name and re-sorts the list. -/
theorem ownerStep_vlan_vlan (i child : Interface) (ifs : List (String × Interface))
    (st : List (String × List String) × Err) (o : String)
    (h : i.Type_ = "vlan") (ho : (ifaceAt ifs o).Type_ = "vlan") :
    ownerStep i child ifs st o =
      .ok (mapSet st.1 child.Name
        (sortStrings (((mapGet st.1 child.Name).getD []) ++ [i.Name])), st.2) := by
  unfold ownerStep
  rw [if_neg (not_exclusive_of_vlan i h), if_pos h, if_neg (not_not.mpr ho)]

/-- A vlan meeting an owner of another type records the conflict. -/
theorem ownerStep_vlan_other (i child : Interface) (ifs : List (String × Interface))
    (st : List (String × List String) × Err) (o : String)
    (h : i.Type_ = "vlan") (ho : (ifaceAt ifs o).Type_ ≠ "vlan") :
    ownerStep i child ifs st o =
      .ok (st.1, st.2.Errorf fmtAlreadyOwned (conflictMsg child (ifaceAt ifs o) i).args) := by
  unfold ownerStep
  rw [if_neg (not_exclusive_of_vlan i h), if_pos h, if_pos ho]
  rfl

/-- Any other owner type reaches the panic. -/
theorem ownerStep_panic (i child : Interface) (ifs : List (String × Interface))
    (st : List (String × List String) × Err) (o : String)
    (h1 : ¬ (i.Type_ = "bond" ∨ i.Type_ = "bridge")) (h2 : i.Type_ ≠ "vlan") :
    ownerStep i child ifs st o = .panic := by
  have h' : ¬ (i.Type_ = "bridge" ∨ i.Type_ = "bond") := fun h => h1 h.symm
  unfold ownerStep
  rw [if_neg h', if_neg h2]

/-- The owner loop only adds messages. -/
theorem ownerStep_msgs (i child : Interface) (ifs : List (String × Interface))
    (st st' : List (String × List String) × Err) (o : String)
    (h : ownerStep i child ifs st o = .ok st') : ∀ m ∈ st.2.msgs, m ∈ st'.2.msgs := by
  intro m hm
  by_cases h1 : i.Type_ = "bond" ∨ i.Type_ = "bridge"
  · rw [ownerStep_exclusive i child ifs st o h1, Outcome.ok.injEq] at h
    subst h
    exact mem_Errorf _ _ _ _ hm
  · by_cases h2 : i.Type_ = "vlan"
    · by_cases h3 : (ifaceAt ifs o).Type_ = "vlan"
      · rw [ownerStep_vlan_vlan i child ifs st o h2 h3, Outcome.ok.injEq] at h
        subst h
        exact hm
      · rw [ownerStep_vlan_other i child ifs st o h2 h3, Outcome.ok.injEq] at h
        subst h
        exact mem_Errorf _ _ _ _ hm
    · rw [ownerStep_panic i child ifs st o h1 h2] at h
      cases h

/-- The child loop only adds messages. -/
theorem childStep_msgs (i : Interface) (ifs : List (String × Interface))
    (st st' : List (String × List String) × Err) (name : String)
    (h : childStep i ifs st name = .ok st') : ∀ m ∈ st.2.msgs, m ∈ st'.2.msgs := by
  intro m hm
  have hclaim : ∀ child, claimChild i child ifs st name = .ok st' → m ∈ st'.2.msgs := by
    intro child hc
    unfold claimChild at hc
    cases hg : mapGet st.1 name with
    | none =>
      simp only [hg, Outcome.ok.injEq] at hc
      subst hc
      exact hm
    | some others =>
      simp only [hg] at hc
      exact forEach_inv (ownerStep i child ifs) (fun s => m ∈ s.2.msgs) others
        (fun s o s' _ hs hstep => ownerStep_msgs i child ifs s s' o hstep m hs) st st' hm hc
  unfold childStep at h
  cases hdef : mapGet ifs name with
  | none =>
    simp only [hdef, Outcome.ok.injEq] at h
    subst h
    exact mem_Errorf _ _ _ _ hm
  | some child =>
    simp only [hdef] at h
    split_ifs at h <;>
      first
      | exact hclaim child h
      | (simp only [Outcome.ok.injEq] at h; subst h; exact mem_Errorf _ _ _ _ hm)

/-- For a bond or bridge the ownership part returns, keeps every present
`Child2Parent` entry, and records a conflict for every present owner. -/
theorem claimChild_exclusive (i child : Interface) (ifs : List (String × Interface))
    (st : List (String × List String) × Err) (name : String)
    (h : i.Type_ = "bond" ∨ i.Type_ = "bridge") :
    ∃ st', claimChild i child ifs st name = .ok st' ∧
      (∀ C ps, mapGet st.1 C = some ps → mapGet st'.1 C = some ps) ∧
      (∀ ps, mapGet st.1 name = some ps →
        ∀ o ∈ ps, conflictMsg child (ifaceAt ifs o) i ∈ st'.2.msgs) := by
  unfold claimChild
  cases hg : mapGet st.1 name with
  | none =>
    refine ⟨_, rfl, ?_, ?_⟩
    · intro C ps hC
      have hne : C ≠ name := by
        intro heq
        rw [heq, hg] at hC
        cases hC
      simpa [mapGet_mapSet_ne _ _ _ _ hne] using hC
    · intro ps hps
      cases hps
  | some others =>
    simp only []
    have hret : ∀ s x, x ∈ others → s.1 = st.1 →
        ∃ s', ownerStep i child ifs s x = .ok s' ∧ s'.1 = st.1 := by
      intro s x _ hs
      exact ⟨_, ownerStep_exclusive i child ifs s x h, hs⟩
    obtain ⟨s', hs', hkeep⟩ := forEach_ok (ownerStep i child ifs) (fun s => s.1 = st.1)
      others hret st rfl
    refine ⟨s', hs', ?_, ?_⟩
    · intro C ps hC
      rw [hkeep]
      exact hC
    · intro ps hps o ho
      simp only [Option.some.injEq] at hps
      subst hps
      obtain ⟨s'', hs'', _, hq⟩ := forEach_reach (ownerStep i child ifs) others o ho
        (fun s => s.1 = st.1) (fun s => conflictMsg child (ifaceAt ifs o) i ∈ s.2.msgs)
        hret
        (fun s s1 _ hstep => by
          rw [ownerStep_exclusive i child ifs s o h] at hstep
          simp only [Outcome.ok.injEq] at hstep
          subst hstep
          simp [Err.Errorf, conflictMsg])
        (fun s x s1 _ hq hstep => ownerStep_msgs i child ifs s s1 x hstep _ hq)
        st rfl
      rw [hs'] at hs''
      simp only [Outcome.ok.injEq] at hs''
      subst hs''
      exact hq

/-- For a bond or bridge the child step returns and keeps every present
`Child2Parent` entry. -/
theorem childStep_exclusive (i : Interface) (ifs : List (String × Interface))
    (st : List (String × List String) × Err) (name : String)
    (h : i.Type_ = "bond" ∨ i.Type_ = "bridge") :
    ∃ st', childStep i ifs st name = .ok st' ∧
      (∀ C ps, mapGet st.1 C = some ps → mapGet st'.1 C = some ps) := by
  unfold childStep
  cases hdef : mapGet ifs name with
  | none => exact ⟨_, rfl, fun C ps hC => hC⟩
  | some child =>
    obtain ⟨s', hs', hkeep, _⟩ := claimChild_exclusive i child ifs st name h
    simp only []
    split_ifs
    all_goals first
      | exact ⟨_, rfl, fun C ps hC => hC⟩
      | exact ⟨s', hs', hkeep⟩
      | (rcases h with h | h <;> contradiction)

/-- When the child is defined and passes the type switch, the child step is
the ownership part. -/
theorem childStep_exclusive_claim (i child : Interface) (ifs : List (String × Interface))
    (st : List (String × List String) × Err) (name : String)
    (h : i.Type_ = "bond" ∨ i.Type_ = "bridge") (hdef : mapGet ifs name = some child)
    (hbond : i.Type_ = "bond" → child.Type_ = "physical")
    (hbridge : i.Type_ = "bridge" → child.Type_ ≠ "bridge") :
    childStep i ifs st name = claimChild i child ifs st name := by
  unfold childStep
  simp only [hdef]
  rcases h with h | h
  · rw [if_pos h, if_neg (not_not.mpr (hbond h))]
  · have hb : i.Type_ ≠ "bond" := by rw [h]; decide
    rw [if_neg hb, if_pos h, if_neg (hbridge h)]

/-- The non-physical branch of `Interface.validate`. -/
theorem validate_nonphysical (i : Interface) (l : Layout) (h : i.Type_ ≠ "physical") :
    i.validate l =
      match forEach (childStep { i with Interfaces := sortStrings i.Interfaces } l.Interfaces)
          (l.Child2Parent, { Prefix := i.Type_ ++ ":" ++ i.MatchID })
          (sortStrings i.Interfaces) with
      | .ok (c2p, e) =>
        .ok ({ i with Interfaces := sortStrings i.Interfaces },
             { l with Child2Parent := c2p }, e.OrNil)
      | .panic => .panic
      | .fuel => .fuel := by
  unfold Interface.validate
  rw [if_neg h]

/-- The physical branch of `Interface.validate`. -/
theorem validate_physical (i : Interface) (l : Layout) (h : i.Type_ = "physical") :
    ∃ err, i.validate l = .ok (i, { l with Roots := l.Roots ++ [i.Name] }, err) := by
  unfold Interface.validate
  rw [if_pos h]
  exact ⟨_, rfl⟩

/-! ## Lemmas: owner lists through the per-interface pass -/

theorem keysAreNames_of_forall (ifs : List (String × Interface))
    (h : ∀ e ∈ ifs, e.2.Name = e.1) : KeysAreNames ifs := by
  induction ifs with
  | nil => intro k i hk; simp [mapGet] at hk
  | cons hd tl ih =>
    intro k i hk
    obtain ⟨k', v⟩ := hd
    by_cases hkk : k' = k
    · simp only [mapGet, hkk, if_true, Option.some.injEq] at hk
      have := h (k', v) (List.mem_cons_self _ _)
      simp only at this
      rw [← hk, this, hkk]
    · simp only [mapGet, hkk, if_false] at hk
      exact ih (fun e he => h e (List.mem_cons_of_mem _ he)) k i hk

theorem ownersOk_mapSet (ifs : List (String × Interface)) (c2p : List (String × List String))
    (name : String) (L : List String) (hinv : OwnersOk ifs c2p)
    (hL : (∃ x, L = [x]) ∨ ∀ p ∈ L, (ifaceAt ifs p).Type_ = "vlan") :
    OwnersOk ifs (mapSet c2p name L) := by
  intro C ps hC
  by_cases hCn : C = name
  · rw [hCn, mapGet_mapSet_self, Option.some.injEq] at hC
    exact hC ▸ hL
  · rw [mapGet_mapSet_ne _ _ _ _ hCn] at hC
    exact hinv C ps hC

/-- The ownership part keeps owner lists singleton-or-all-vlan, when the child
is stored under its own name and the validated interface under its own. -/
theorem claimChild_ownersOk (i child : Interface) (ifs : List (String × Interface))
    (st st' : List (String × List String) × Err) (name : String)
    (hname : child.Name = name) (hself : (ifaceAt ifs i.Name).Type_ = i.Type_)
    (hinv : OwnersOk ifs st.1) (h : claimChild i child ifs st name = .ok st') :
    OwnersOk ifs st'.1 := by
  unfold claimChild at h
  cases hg : mapGet st.1 name with
  | none =>
    simp only [hg, Outcome.ok.injEq] at h
    subst h
    exact ownersOk_mapSet ifs st.1 name [i.Name] hinv (Or.inl ⟨_, rfl⟩)
  | some others =>
    simp only [hg] at h
    have hJ := forEach_inv (ownerStep i child ifs)
      (fun s => OwnersOk ifs s.1 ∧
        (mapGet s.1 name = some others ∨
          ∀ p ∈ (mapGet s.1 name).getD [], (ifaceAt ifs p).Type_ = "vlan"))
      others ?_ st st' ⟨hinv, Or.inl hg⟩ h
    · exact hJ.1
    · intro s o s' ho hs hstep
      by_cases h1 : i.Type_ = "bond" ∨ i.Type_ = "bridge"
      · rw [ownerStep_exclusive i child ifs s o h1, Outcome.ok.injEq] at hstep
        subst hstep
        exact hs
      · by_cases h2 : i.Type_ = "vlan"
        · by_cases h3 : (ifaceAt ifs o).Type_ = "vlan"
          · rw [ownerStep_vlan_vlan i child ifs s o h2 h3, Outcome.ok.injEq] at hstep
            subst hstep
            rw [hname]
            have hcur : ∀ p ∈ (mapGet s.1 name).getD [], (ifaceAt ifs p).Type_ = "vlan" := by
              rcases hs.2 with hsame | hall
              · rw [hsame]
                simp only [Option.getD_some]
                rcases hs.1 name others hsame with ⟨x, hx⟩ | hall
                · intro p hp
                  rw [hx, List.mem_singleton] at hp
                  rw [hx, List.mem_singleton] at ho
                  rw [hp, ← ho]
                  exact h3
                · exact hall
              · exact hall
            have hnew : ∀ p ∈ sortStrings ((mapGet s.1 name).getD [] ++ [i.Name]),
                (ifaceAt ifs p).Type_ = "vlan" := by
              intro p hp
              rw [mem_sortStrings, List.mem_append, List.mem_singleton] at hp
              rcases hp with hp | hp
              · exact hcur p hp
              · rw [hp, hself, h2]
            refine ⟨ownersOk_mapSet ifs s.1 name _ hs.1 (Or.inr hnew), Or.inr ?_⟩
            simp only [mapGet_mapSet_self, Option.getD_some]
            exact hnew
          · rw [ownerStep_vlan_other i child ifs s o h2 h3, Outcome.ok.injEq] at hstep
            subst hstep
            exact hs
        · rw [ownerStep_panic i child ifs s o h1 h2] at hstep
          cases hstep

/-- The child step keeps owner lists singleton-or-all-vlan. -/
theorem childStep_ownersOk (i : Interface) (ifs : List (String × Interface))
    (st st' : List (String × List String) × Err) (name : String)
    (hkeys : KeysAreNames ifs) (hself : (ifaceAt ifs i.Name).Type_ = i.Type_)
    (hinv : OwnersOk ifs st.1) (h : childStep i ifs st name = .ok st') :
    OwnersOk ifs st'.1 := by
  unfold childStep at h
  cases hdef : mapGet ifs name with
  | none =>
    simp only [hdef, Outcome.ok.injEq] at h
    subst h
    exact hinv
  | some child =>
    simp only [hdef] at h
    have hclaim : claimChild i child ifs st name = .ok st' → OwnersOk ifs st'.1 :=
      claimChild_ownersOk i child ifs st st' name (hkeys name child hdef) hself hinv
    split_ifs at h <;>
      first
      | exact hclaim h
      | (simp only [Outcome.ok.injEq] at h; subst h; exact hinv)

/-- What `Interface.validate` leaves: same `Interfaces`, owner lists still
singleton-or-all-vlan, receiver with the same `Type` and `Name`. -/
theorem validate_ownersOk (i i' : Interface) (l l' : Layout) (err : Option Err)
    (hkeys : KeysAreNames l.Interfaces)
    (hself : (ifaceAt l.Interfaces i.Name).Type_ = i.Type_)
    (hinv : OwnersOk l.Interfaces l.Child2Parent)
    (h : i.validate l = .ok (i', l', err)) :
    l'.Interfaces = l.Interfaces ∧ OwnersOk l.Interfaces l'.Child2Parent ∧
      i'.Type_ = i.Type_ ∧ i'.Name = i.Name := by
  by_cases hphys : i.Type_ = "physical"
  · obtain ⟨e, he⟩ := validate_physical i l hphys
    rw [he, Outcome.ok.injEq, Prod.mk.injEq, Prod.mk.injEq] at h
    obtain ⟨hi, hl, _⟩ := h
    subst hi hl
    exact ⟨rfl, hinv, rfl, rfl⟩
  · rw [validate_nonphysical i l hphys] at h
    cases hf : forEach (childStep { i with Interfaces := sortStrings i.Interfaces } l.Interfaces)
        (l.Child2Parent, { Prefix := i.Type_ ++ ":" ++ i.MatchID })
        (sortStrings i.Interfaces) with
    | ok s =>
      obtain ⟨c, e⟩ := s
      rw [hf] at h
      simp only [Outcome.ok.injEq, Prod.mk.injEq] at h
      obtain ⟨hi, hl, _⟩ := h
      subst hi hl
      refine ⟨rfl, ?_, rfl, rfl⟩
      exact forEach_inv _ (fun s => OwnersOk l.Interfaces s.1) _
        (fun s x s' _ hs hstep =>
          childStep_ownersOk _ l.Interfaces s s' x hkeys hself hs hstep)
        _ _ hinv hf
    | panic => rw [hf] at h; cases h
    | fuel => rw [hf] at h; cases h

/-- One member of the pass keeps the keys, "keys are names" and the shape of
the owner lists. -/
theorem validateMember_inv (l l' : Layout) (k : String) (v : Interface)
    (hk : mapGet l.Interfaces k = some v) (hkeys : KeysAreNames l.Interfaces)
    (hinv : OwnersOk l.Interfaces l.Child2Parent) (h : validateMember l k = .ok l') :
    KeysAreNames l'.Interfaces ∧ OwnersOk l'.Interfaces l'.Child2Parent ∧
      ∀ p, (mapGet l.Interfaces p).isSome → (mapGet l'.Interfaces p).isSome := by
  have hat : ifaceAt l.Interfaces k = v := by simp [ifaceAt, hk]
  have hvn : v.Name = k := hkeys k v hk
  unfold validateMember at h
  rw [hat] at h
  dsimp only at h
  cases hv : v.validate l with
  | ok r =>
    obtain ⟨v', l1, err⟩ := r
    rw [hv] at h
    simp only [Outcome.ok.injEq] at h
    subst h
    obtain ⟨hifs, hown, hty, hnm⟩ := validate_ownersOk v v' l l1 err hkeys
      (by rw [hvn, hat]) hinv hv
    simp only [hifs]
    have htype : ∀ p, (ifaceAt (mapSet l.Interfaces k v') p).Type_ =
        (ifaceAt l.Interfaces p).Type_ := by
      intro p
      by_cases hp : p = k
      · rw [hp, hat]
        simp [ifaceAt, mapGet_mapSet_self, hty]
      · simp [ifaceAt, mapGet_mapSet_ne _ _ _ _ hp]
    refine ⟨?_, ?_, ?_⟩
    · intro p i hp
      by_cases hpk : p = k
      · rw [hpk, mapGet_mapSet_self, Option.some.injEq] at hp
        rw [← hp, hnm, hvn, hpk]
      · rw [mapGet_mapSet_ne _ _ _ _ hpk] at hp
        exact hkeys p i hp
    · intro C ps hC
      rcases hown C ps hC with hx | hall
      · exact Or.inl hx
      · exact Or.inr (fun p hp => by rw [htype p]; exact hall p hp)
    · intro p hp
      by_cases hpk : p = k
      · rw [hpk, mapGet_mapSet_self]
        rfl
      · rw [mapGet_mapSet_ne _ _ _ _ hpk]
        exact hp
  | panic => rw [hv] at h; cases h
  | fuel => rw [hv] at h; cases h

/-- The per-interface pass of a Layout whose keys are names leaves owner lists
that are singletons or hold vlans only. -/
theorem pass_ownersOk (l l1 : Layout) (hkeys : KeysAreNames l.Interfaces)
    (h : perInterfacePass l = .ok l1) :
    KeysAreNames l1.Interfaces ∧ OwnersOk l1.Interfaces l1.Child2Parent := by
  have hP := forEach_inv validateMember
    (fun s => KeysAreNames s.Interfaces ∧ OwnersOk s.Interfaces s.Child2Parent ∧
      ∀ k ∈ sortStrings (mapKeys l.Interfaces), (mapGet s.Interfaces k).isSome)
    (sortStrings (mapKeys l.Interfaces))
    (fun s k s' hk hs hstep => by
      obtain ⟨v, hv⟩ := Option.isSome_iff_exists.mp (hs.2.2 k hk)
      obtain ⟨h1, h2, h3⟩ := validateMember_inv s s' k v hv hs.1 hs.2.1 hstep
      exact ⟨h1, h2, fun q hq => h3 q (hs.2.2 q hq)⟩)
    { l with Roots := [], Child2Parent := [] } l1
    ⟨hkeys, (fun C ps hC => by simp [mapGet] at hC), (fun k hk => by
      obtain ⟨v, hv⟩ := mem_keys_mapGet l.Interfaces k ((mem_sortStrings _ _).mp hk)
      simp [hv])⟩ h
  exact ⟨hP.1, hP.2.1⟩

/-! ## Lemmas: undefined children -/

theorem sortStrings_sorted (l : List String) :
    List.Sorted (fun a b => a.toList ≤ b.toList) (sortStrings l) := by
  haveI : IsTotal String (fun a b => a.toList ≤ b.toList) :=
    ⟨fun a b => le_total a.toList b.toList⟩
  haveI : IsTrans String (fun a b => a.toList ≤ b.toList) :=
    ⟨fun a b c hab hbc => le_trans hab hbc⟩
  exact List.sorted_insertionSort _ l

/-- Sorting and dropping names commute. -/
theorem sortStrings_filter (p : String → Bool) (l : List String) :
    sortStrings (l.filter p) = (sortStrings l).filter p := by
  haveI : IsAntisymm String (fun a b => a.toList ≤ b.toList) :=
    ⟨fun a b hab hba => String.ext (le_antisymm hab hba)⟩
  apply List.eq_of_perm_of_sorted _ (sortStrings_sorted _) ((sortStrings_sorted l).filter p)
  exact (List.perm_insertionSort _ (l.filter p)).trans
    ((List.perm_insertionSort _ l).filter p).symm

theorem ownerStep_congr (i j : Interface) (hT : i.Type_ = j.Type_) (hN : i.Name = j.Name) :
    ownerStep i = ownerStep j := by
  funext child ifs st o
  simp only [ownerStep, hT, hN]

theorem claimChild_congr (i j : Interface) (hT : i.Type_ = j.Type_) (hN : i.Name = j.Name) :
    claimChild i = claimChild j := by
  funext child ifs st name
  simp only [claimChild, ownerStep_congr i j hT hN, hN]

/-- The child step reads only the `Type` and `Name` of the validated interface. -/
theorem childStep_congr (i j : Interface) (hT : i.Type_ = j.Type_) (hN : i.Name = j.Name) :
    childStep i = childStep j := by
  funext ifs st name
  simp only [childStep, claimChild_congr i j hT hN, hT, hN]

theorem ownerStep_returns (i child : Interface) (ifs : List (String × Interface))
    (st : List (String × List String) × Err) (o : String)
    (h3 : i.Type_ = "bond" ∨ i.Type_ = "bridge" ∨ i.Type_ = "vlan") :
    ∃ st', ownerStep i child ifs st o = .ok st' := by
  rcases h3 with h | h | h
  · exact ⟨_, ownerStep_exclusive i child ifs st o (Or.inl h)⟩
  · exact ⟨_, ownerStep_exclusive i child ifs st o (Or.inr h)⟩
  · by_cases ho : (ifaceAt ifs o).Type_ = "vlan"
    · exact ⟨_, ownerStep_vlan_vlan i child ifs st o h ho⟩
    · exact ⟨_, ownerStep_vlan_other i child ifs st o h ho⟩

theorem claimChild_returns (i child : Interface) (ifs : List (String × Interface))
    (st : List (String × List String) × Err) (name : String)
    (h3 : i.Type_ = "bond" ∨ i.Type_ = "bridge" ∨ i.Type_ = "vlan") :
    ∃ st', claimChild i child ifs st name = .ok st' := by
  unfold claimChild
  cases mapGet st.1 name with
  | none => exact ⟨_, rfl⟩
  | some others =>
    obtain ⟨s', hs', _⟩ := forEach_ok (ownerStep i child ifs) (fun _ => True) others
      (fun s o _ _ => by
        obtain ⟨s1, h1⟩ := ownerStep_returns i child ifs s o h3
        exact ⟨s1, h1, trivial⟩) st trivial
    exact ⟨s', hs'⟩

/-- For a bond, bridge or vlan the child step never reaches the panic. -/
theorem childStep_returns (i : Interface) (ifs : List (String × Interface))
    (st : List (String × List String) × Err) (name : String)
    (h3 : i.Type_ = "bond" ∨ i.Type_ = "bridge" ∨ i.Type_ = "vlan") :
    ∃ st', childStep i ifs st name = .ok st' := by
  unfold childStep
  cases mapGet ifs name with
  | none => exact ⟨_, rfl⟩
  | some child =>
    simp only []
    split_ifs
    all_goals first
      | exact ⟨_, rfl⟩
      | exact claimChild_returns i child ifs st name h3
      | (rcases h3 with h | h | h <;> contradiction)

/-- The step on an undefined name records the message and nothing else. -/
theorem childStep_undefined (i : Interface) (ifs : List (String × Interface))
    (st : List (String × List String) × Err) (U : String) (hU : mapGet ifs U = none) :
    childStep i ifs st U = .ok (st.1, st.2.Errorf fmtUndefined (undefinedMsg i U).args) := by
  unfold childStep
  simp only [hU]
  rfl

/-- Two loops related step by step end related. -/
theorem forEach_sim {σ α : Type} (f : σ → α → Outcome σ) (R : σ → σ → Prop) (as : List α)
    (hstep : ∀ s t a s', a ∈ as → R s t → f s a = .ok s' → ∃ t', f t a = .ok t' ∧ R s' t') :
    ∀ s t s', R s t → forEach f s as = .ok s' → ∃ t', forEach f t as = .ok t' ∧ R s' t' := by
  induction as with
  | nil =>
    intro s t s' hR h
    simp only [forEach, Outcome.ok.injEq] at h
    exact ⟨t, rfl, h ▸ hR⟩
  | cons a as ih =>
    intro s t s' hR h
    simp only [forEach] at h
    cases hfa : f s a with
    | ok s1 =>
      rw [hfa] at h
      obtain ⟨t1, ht1, hR1⟩ := hstep s t a s1 (List.mem_cons_self _ _) hR hfa
      obtain ⟨t', ht', hR'⟩ := ih
        (fun s t a s' ha => hstep s t a s' (List.mem_cons_of_mem _ ha)) s1 t1 s' hR1 h
      exact ⟨t', by simp only [forEach, ht1, ht'], hR'⟩
    | panic => rw [hfa] at h; cases h
    | fuel => rw [hfa] at h; cases h

/-- What the owner step does to `Child2Parent` does not depend on the
accumulated messages. -/
theorem ownerStep_sim (i child : Interface) (ifs : List (String × Interface))
    (s t s' : List (String × List String) × Err) (o : String) (hR : s.1 = t.1)
    (h : ownerStep i child ifs s o = .ok s') :
    ∃ t', ownerStep i child ifs t o = .ok t' ∧ s'.1 = t'.1 := by
  by_cases h1 : i.Type_ = "bond" ∨ i.Type_ = "bridge"
  · rw [ownerStep_exclusive i child ifs s o h1, Outcome.ok.injEq] at h
    subst h
    exact ⟨_, ownerStep_exclusive i child ifs t o h1, hR⟩
  · by_cases h2 : i.Type_ = "vlan"
    · by_cases h3 : (ifaceAt ifs o).Type_ = "vlan"
      · rw [ownerStep_vlan_vlan i child ifs s o h2 h3, Outcome.ok.injEq] at h
        subst h
        exact ⟨_, ownerStep_vlan_vlan i child ifs t o h2 h3, by simp only [hR]⟩
      · rw [ownerStep_vlan_other i child ifs s o h2 h3, Outcome.ok.injEq] at h
        subst h
        exact ⟨_, ownerStep_vlan_other i child ifs t o h2 h3, hR⟩
    · rw [ownerStep_panic i child ifs s o h1 h2] at h
      cases h

theorem claimChild_sim (i child : Interface) (ifs : List (String × Interface))
    (s t s' : List (String × List String) × Err) (name : String) (hR : s.1 = t.1)
    (h : claimChild i child ifs s name = .ok s') :
    ∃ t', claimChild i child ifs t name = .ok t' ∧ s'.1 = t'.1 := by
  unfold claimChild at h ⊢
  rw [← hR]
  cases hg : mapGet s.1 name with
  | none =>
    simp only [hg, Outcome.ok.injEq] at h
    subst h
    exact ⟨_, rfl, rfl⟩
  | some others =>
    simp only [hg] at h
    exact forEach_sim (ownerStep i child ifs) (fun a b => a.1 = b.1) others
      (fun a b o a' _ hab hstep => ownerStep_sim i child ifs a b a' o hab hstep) s t s' hR h

/-- What the child step does to `Child2Parent` does not depend on the
accumulated messages. -/
theorem childStep_sim (i : Interface) (ifs : List (String × Interface))
    (s t s' : List (String × List String) × Err) (name : String) (hR : s.1 = t.1)
    (h : childStep i ifs s name = .ok s') :
    ∃ t', childStep i ifs t name = .ok t' ∧ s'.1 = t'.1 := by
  unfold childStep at h ⊢
  cases hdef : mapGet ifs name with
  | none =>
    simp only [hdef, Outcome.ok.injEq] at h
    subst h
    exact ⟨_, rfl, hR⟩
  | some child =>
    simp only [hdef] at h
    simp only []
    split_ifs at h ⊢
    all_goals first
      | exact claimChild_sim i child ifs s t s' name hR h
      | (simp only [Outcome.ok.injEq] at h; subst h; exact ⟨_, rfl, hR⟩)

/-- The owner step writes `Child2Parent` at the child's `Name` only. -/
theorem ownerStep_frame (i child : Interface) (ifs : List (String × Interface))
    (s s' : List (String × List String) × Err) (o q : String) (hq : q ≠ child.Name)
    (h : ownerStep i child ifs s o = .ok s') : mapGet s'.1 q = mapGet s.1 q := by
  by_cases h1 : i.Type_ = "bond" ∨ i.Type_ = "bridge"
  · rw [ownerStep_exclusive i child ifs s o h1, Outcome.ok.injEq] at h
    subst h
    rfl
  · by_cases h2 : i.Type_ = "vlan"
    · by_cases h3 : (ifaceAt ifs o).Type_ = "vlan"
      · rw [ownerStep_vlan_vlan i child ifs s o h2 h3, Outcome.ok.injEq] at h
        subst h
        exact mapGet_mapSet_ne _ _ _ _ hq
      · rw [ownerStep_vlan_other i child ifs s o h2 h3, Outcome.ok.injEq] at h
        subst h
        rfl
    · rw [ownerStep_panic i child ifs s o h1 h2] at h
      cases h

/-- The child step leaves `Child2Parent[q]` alone when `q` is undefined and
no child defined at `name` is named `q`. -/
theorem childStep_frame (i : Interface) (ifs : List (String × Interface))
    (st st' : List (String × List String) × Err) (name q : String)
    (hq : mapGet ifs q = none)
    (hnames : ∀ child, mapGet ifs name = some child → child.Name ≠ q)
    (h : childStep i ifs st name = .ok st') : mapGet st'.1 q = mapGet st.1 q := by
  unfold childStep at h
  cases hdef : mapGet ifs name with
  | none =>
    simp only [hdef, Outcome.ok.injEq] at h
    subst h
    rfl
  | some child =>
    simp only [hdef] at h
    have hqn : q ≠ name := by
      intro heq
      rw [heq, hdef] at hq
      cases hq
    have hqc : q ≠ child.Name := fun heq => hnames child hdef heq.symm
    have hclaim : claimChild i child ifs st name = .ok st' →
        mapGet st'.1 q = mapGet st.1 q := by
      intro hc
      unfold claimChild at hc
      cases hg : mapGet st.1 name with
      | none =>
        simp only [hg, Outcome.ok.injEq] at hc
        subst hc
        exact mapGet_mapSet_ne _ _ _ _ hqn
      | some others =>
        simp only [hg] at hc
        exact forEach_inv (ownerStep i child ifs) (fun s => mapGet s.1 q = mapGet st.1 q)
          others
          (fun s o s' _ hs hstep => (ownerStep_frame i child ifs s s' o q hqc hstep).trans hs)
          st st' rfl hc
    split_ifs at h <;>
      first
      | exact hclaim h
      | (simp only [Outcome.ok.injEq] at h; subst h; rfl)

/-- Dropping an undefined name from the child list does not change the
`Child2Parent` that the child loop builds. -/
theorem forEach_filter_undefined (i : Interface) (ifs : List (String × Interface))
    (U : String) (h3 : i.Type_ = "bond" ∨ i.Type_ = "bridge" ∨ i.Type_ = "vlan")
    (hU : mapGet ifs U = none) :
    ∀ (xs : List String) (s t : List (String × List String) × Err), s.1 = t.1 →
      ∃ s' t', forEach (childStep i ifs) s xs = .ok s' ∧
        forEach (childStep i ifs) t (xs.filter (fun n => decide (n ≠ U))) = .ok t' ∧
        s'.1 = t'.1 := by
  intro xs
  induction xs with
  | nil => intro s t hR; exact ⟨s, t, rfl, rfl, hR⟩
  | cons x xs ih =>
    intro s t hR
    by_cases hx : x = U
    · obtain ⟨s', t', hs', ht', hR'⟩ :=
        ih (s.1, s.2.Errorf fmtUndefined (undefinedMsg i U).args) t hR
      refine ⟨s', t', ?_, ?_, hR'⟩
      · simp only [forEach, hx, childStep_undefined i ifs s U hU, hs']
      · rw [List.filter_cons_of_neg (by simp [hx])]
        exact ht'
    · obtain ⟨s1, hs1⟩ := childStep_returns i ifs s x h3
      obtain ⟨t1, ht1, hR1⟩ := childStep_sim i ifs s t s1 x hR hs1
      obtain ⟨s', t', hs', ht', hR'⟩ := ih s1 t1 hR1
      refine ⟨s', t', ?_, ?_, hR'⟩
      · simp only [forEach, hs1, hs']
      · rw [List.filter_cons_of_pos (by simp [hx])]
        simp only [forEach, ht1, ht']

/-! ## Lemmas: what a bond or bridge writes -/

theorem not_legal_of_illegal (i child : Interface) (ifs : List (String × Interface))
    (x : String) (hdef : mapGet ifs x = some child) (hbad : Illegal i child) :
    ¬ Legal i ifs x := by
  rintro ⟨c, hc, h1, h2, h3⟩
  rw [hdef, Option.some.injEq] at hc
  subst hc
  rcases hbad with ⟨hb, hne⟩ | ⟨hb, he⟩ | ⟨hb, he⟩
  · exact hne (h1 hb)
  · exact h2 hb he
  · exact h3 hb he

/-- The three ways through the child step of a bond, bridge or vlan: the name
is undefined, the child is of a type the interface may not own, or the step
is the ownership part. -/
theorem childStep_cases (i : Interface) (ifs : List (String × Interface))
    (st : List (String × List String) × Err) (x : String)
    (h3 : i.Type_ = "bond" ∨ i.Type_ = "bridge" ∨ i.Type_ = "vlan") :
    (mapGet ifs x = none ∧
      childStep i ifs st x = .ok (st.1, st.2.Errorf fmtUndefined (undefinedMsg i x).args)) ∨
    (∃ child, mapGet ifs x = some child ∧ Illegal i child ∧
      childStep i ifs st x =
        .ok (st.1, st.2.Errorf (typeMsg i child).format (typeMsg i child).args)) ∨
    (∃ child, mapGet ifs x = some child ∧ Legal i ifs x ∧
      childStep i ifs st x = claimChild i child ifs st x) := by
  cases hdef : mapGet ifs x with
  | none => exact Or.inl ⟨rfl, childStep_undefined i ifs st x hdef⟩
  | some child =>
    refine Or.inr ?_
    unfold childStep
    simp only [hdef]
    rcases h3 with h | h | h
    · rw [if_pos h]
      by_cases hc : child.Type_ = "physical"
      · refine Or.inr ⟨child, rfl, ⟨child, hdef, fun _ => hc, ?_, ?_⟩, ?_⟩
        · intro hb; rw [h] at hb; exact absurd hb (by decide)
        · intro hb; rw [h] at hb; exact absurd hb (by decide)
        · rw [if_neg (not_not.mpr hc)]
      · refine Or.inl ⟨child, rfl, Or.inl ⟨h, hc⟩, ?_⟩
        rw [if_pos hc]
        simp [typeMsg, h]
    · have hb : i.Type_ ≠ "bond" := by rw [h]; decide
      rw [if_neg hb, if_pos h]
      by_cases hc : child.Type_ = "bridge"
      · refine Or.inl ⟨child, rfl, Or.inr (Or.inl ⟨h, hc⟩), ?_⟩
        rw [if_pos hc]
        simp [typeMsg, hb]
      · refine Or.inr ⟨child, rfl, ⟨child, hdef, ?_, fun _ => hc, ?_⟩, ?_⟩
        · intro hb'; exact absurd hb' hb
        · intro hb'; rw [h] at hb'; exact absurd hb' (by decide)
        · rw [if_neg hc]
    · have hb : i.Type_ ≠ "bond" := by rw [h]; decide
      have hbr : i.Type_ ≠ "bridge" := by rw [h]; decide
      rw [if_neg hb, if_neg hbr, if_pos h]
      by_cases hc : child.Type_ = "vlan"
      · refine Or.inl ⟨child, rfl, Or.inr (Or.inr ⟨h, hc⟩), ?_⟩
        rw [if_pos hc]
        simp [typeMsg, hb]
      · refine Or.inr ⟨child, rfl, ⟨child, hdef, ?_, ?_, fun _ => hc⟩, ?_⟩
        · intro hb'; exact absurd hb' hb
        · intro hb'; exact absurd hb' hbr
        · rw [if_neg hc]

/-- For a bond or bridge, the ownership part of an owned child leaves
`Child2Parent` as it is. -/
theorem claimChild_exclusive_owned (i child : Interface) (ifs : List (String × Interface))
    (st : List (String × List String) × Err) (name : String) (others : List String)
    (h : i.Type_ = "bond" ∨ i.Type_ = "bridge") (hg : mapGet st.1 name = some others) :
    ∃ st', claimChild i child ifs st name = .ok st' ∧ st'.1 = st.1 := by
  unfold claimChild
  simp only [hg]
  exact forEach_ok (ownerStep i child ifs) (fun s => s.1 = st.1) others
    (fun s x _ hs => ⟨_, ownerStep_exclusive i child ifs s x h, hs⟩) st rfl

/-- For a bond or bridge, the child step claims the name when it is legal and
unowned, and otherwise leaves `Child2Parent` as it is. -/
theorem childStep_exclusive_c2p (i : Interface) (ifs : List (String × Interface))
    (st st' : List (String × List String) × Err) (x : String)
    (h : i.Type_ = "bond" ∨ i.Type_ = "bridge") (hstep : childStep i ifs st x = .ok st') :
    (Legal i ifs x ∧ mapGet st.1 x = none ∧ st'.1 = mapSet st.1 x [i.Name]) ∨
    (¬ (Legal i ifs x ∧ mapGet st.1 x = none) ∧ st'.1 = st.1) := by
  have h3 : i.Type_ = "bond" ∨ i.Type_ = "bridge" ∨ i.Type_ = "vlan" :=
    h.elim Or.inl (fun hb => Or.inr (Or.inl hb))
  rcases childStep_cases i ifs st x h3 with ⟨hdef, hs⟩ | ⟨child, hdef, hbad, hs⟩ |
      ⟨child, hdef, hlegal, hs⟩
  · rw [hs, Outcome.ok.injEq] at hstep
    subst hstep
    refine Or.inr ⟨?_, rfl⟩
    rintro ⟨⟨c, hc, _⟩, _⟩
    rw [hdef] at hc
    cases hc
  · rw [hs, Outcome.ok.injEq] at hstep
    subst hstep
    exact Or.inr ⟨fun hl => not_legal_of_illegal i child ifs x hdef hbad hl.1, rfl⟩
  · rw [hs] at hstep
    cases hg : mapGet st.1 x with
    | none =>
      unfold claimChild at hstep
      simp only [hg, Outcome.ok.injEq] at hstep
      subst hstep
      exact Or.inl ⟨hlegal, rfl, rfl⟩
    | some others =>
      obtain ⟨s1, hs1, hkeep⟩ := claimChild_exclusive_owned i child ifs st x others h hg
      rw [hs1, Outcome.ok.injEq] at hstep
      subst hstep
      refine Or.inr ⟨?_, hkeep⟩
      rintro ⟨_, hnone⟩
      cases hnone

/-- What the child loop of a bond or bridge leaves at each key: a present
entry stays as it is; an absent one becomes `[i.Name]` exactly when the key is
a listed, legal name. -/
theorem forEach_exclusive_lookup (i : Interface) (ifs : List (String × Interface))
    (h : i.Type_ = "bond" ∨ i.Type_ = "bridge") :
    ∀ (s : List String) (st st' : List (String × List String) × Err),
      forEach (childStep i ifs) st s = .ok st' → ∀ k,
        (∀ ps, mapGet st.1 k = some ps → mapGet st'.1 k = some ps) ∧
        (mapGet st.1 k = none →
          (k ∈ s ∧ Legal i ifs k → mapGet st'.1 k = some [i.Name]) ∧
          (¬ (k ∈ s ∧ Legal i ifs k) → mapGet st'.1 k = none)) := by
  intro s
  induction s with
  | nil =>
    intro st st' hf k
    simp only [forEach, Outcome.ok.injEq] at hf
    subst hf
    exact ⟨fun ps hps => hps, fun hnone =>
      ⟨fun hk => absurd hk.1 (List.not_mem_nil _), fun _ => hnone⟩⟩
  | cons x rest ih =>
    intro st st' hf k
    simp only [forEach] at hf
    cases hx : childStep i ifs st x with
    | ok st1 =>
      rw [hx] at hf
      have hrest := ih st1 st' hf k
      have hstep := childStep_exclusive_c2p i ifs st st1 x h hx
      refine ⟨?_, ?_⟩
      · intro ps hps
        apply hrest.1
        rcases hstep with ⟨_, hnone, heq⟩ | ⟨_, heq⟩
        · have hkx : k ≠ x := by
            intro hkx
            rw [hkx, hnone] at hps
            cases hps
          rw [heq, mapGet_mapSet_ne _ _ _ _ hkx]
          exact hps
        · rw [heq]
          exact hps
      · intro hnone
        rcases hstep with ⟨hlegal, hxnone, heq⟩ | ⟨hnot, heq⟩
        · by_cases hkx : k = x
          · have hk1 : mapGet st1.1 k = some [i.Name] := by
              rw [heq, hkx, mapGet_mapSet_self]
            refine ⟨fun _ => hrest.1 _ hk1, fun hn => ?_⟩
            exact absurd ⟨hkx ▸ List.mem_cons_self _ _, hkx ▸ hlegal⟩ hn
          · have hk1 : mapGet st1.1 k = none := by
              rw [heq, mapGet_mapSet_ne _ _ _ _ hkx]
              exact hnone
            refine ⟨fun hk => (hrest.2 hk1).1 ⟨?_, hk.2⟩, fun hn => (hrest.2 hk1).2 ?_⟩
            · rcases List.mem_cons.mp hk.1 with hh | hh
              · exact absurd hh hkx
              · exact hh
            · exact fun hk => hn ⟨List.mem_cons_of_mem _ hk.1, hk.2⟩
        · have hk1 : mapGet st1.1 k = none := by
            rw [heq]
            exact hnone
          refine ⟨fun hk => (hrest.2 hk1).1 ⟨?_, hk.2⟩, fun hn => (hrest.2 hk1).2 ?_⟩
          · rcases List.mem_cons.mp hk.1 with hh | hh
            · exact absurd ⟨hh ▸ hk.2, hh ▸ hnone⟩ hnot
            · exact hh
          · exact fun hk => hn ⟨List.mem_cons_of_mem _ hk.1, hk.2⟩
    | panic => rw [hx] at hf; cases hf
    | fuel => rw [hx] at hf; cases hf

/-! ## Lemmas: the child-type rules -/

/-- The owner step writes `Child2Parent` for a vlan only, at the child's
`Name`. -/
theorem ownerStep_frame_vlan (i child : Interface) (ifs : List (String × Interface))
    (s s' : List (String × List String) × Err) (o q : String)
    (hq : i.Type_ = "vlan" → q ≠ child.Name)
    (h : ownerStep i child ifs s o = .ok s') : mapGet s'.1 q = mapGet s.1 q := by
  by_cases h1 : i.Type_ = "bond" ∨ i.Type_ = "bridge"
  · rw [ownerStep_exclusive i child ifs s o h1, Outcome.ok.injEq] at h
    subst h
    rfl
  · by_cases h2 : i.Type_ = "vlan"
    · exact ownerStep_frame i child ifs s s' o q (hq h2) h
    · rw [ownerStep_panic i child ifs s o h1 h2] at h
      cases h

/-- The child step at `name` leaves `Child2Parent[q]` alone for `q ≠ name`,
provided, for a vlan, that the child defined at `name` is not named `q`. -/
theorem childStep_frame_ne (i : Interface) (ifs : List (String × Interface))
    (st st' : List (String × List String) × Err) (name q : String) (hq : q ≠ name)
    (hnames : i.Type_ = "vlan" → ∀ child, mapGet ifs name = some child → child.Name ≠ q)
    (h : childStep i ifs st name = .ok st') : mapGet st'.1 q = mapGet st.1 q := by
  unfold childStep at h
  cases hdef : mapGet ifs name with
  | none =>
    simp only [hdef, Outcome.ok.injEq] at h
    subst h
    rfl
  | some child =>
    simp only [hdef] at h
    have hclaim : claimChild i child ifs st name = .ok st' →
        mapGet st'.1 q = mapGet st.1 q := by
      intro hc
      unfold claimChild at hc
      cases hg : mapGet st.1 name with
      | none =>
        simp only [hg, Outcome.ok.injEq] at hc
        subst hc
        exact mapGet_mapSet_ne _ _ _ _ hq
      | some others =>
        simp only [hg] at hc
        exact forEach_inv (ownerStep i child ifs) (fun s => mapGet s.1 q = mapGet st.1 q)
          others
          (fun s o s' _ hs hstep =>
            (ownerStep_frame_vlan i child ifs s s' o q
              (fun hv heq => hnames hv child hdef heq.symm) hstep).trans hs)
          st st' rfl hc
    split_ifs at h <;>
      first
      | exact hclaim h
      | (simp only [Outcome.ok.injEq] at h; subst h; rfl)

/-- A loop over `pre ++ a :: post` that returns went through the three parts. -/
theorem forEach_split {σ α : Type} (f : σ → α → Outcome σ) (pre post : List α) (a : α)
    (s s' : σ) (h : forEach f s (pre ++ a :: post) = .ok s') :
    ∃ sa sb, forEach f s pre = .ok sa ∧ f sa a = .ok sb ∧ forEach f sb post = .ok s' := by
  rw [forEach_append] at h
  cases hpre : forEach f s pre with
  | ok sa =>
    rw [hpre] at h
    simp only [forEach] at h
    cases ha : f sa a with
    | ok sb =>
      rw [ha] at h
      exact ⟨sa, sb, rfl, ha, h⟩
    | panic => rw [ha] at h; cases h
    | fuel => rw [ha] at h; cases h
  | panic => rw [hpre] at h; cases h
  | fuel => rw [hpre] at h; cases h

/-- A name listed once splits the list around it. -/
theorem split_of_count_one (l : List String) (a : String) (h : l.count a = 1) :
    ∃ pre post, l = pre ++ a :: post ∧ a ∉ pre ∧ a ∉ post := by
  have hmem : a ∈ l := List.count_pos_iff.mp (by omega)
  obtain ⟨pre, post, rfl⟩ := List.append_of_mem hmem
  refine ⟨pre, post, rfl, ?_, ?_⟩
  · intro hin
    have := List.count_pos_iff.mpr hin
    simp only [List.count_append, List.count_cons_self] at h
    omega
  · intro hin
    have := List.count_pos_iff.mpr hin
    simp only [List.count_append, List.count_cons_self] at h
    omega

/-- The child loop over a part of the list that does not hold `q` leaves
`Child2Parent[q]` alone, when for a vlan no child defined there is named `q`. -/
theorem forEach_frame_ne (i : Interface) (ifs : List (String × Interface))
    (s : List String) (q : String) (hq : q ∉ s)
    (hnames : i.Type_ = "vlan" → ∀ c ∈ s, ∀ ch, mapGet ifs c = some ch → ch.Name ≠ q)
    (st st' : List (String × List String) × Err)
    (h : forEach (childStep i ifs) st s = .ok st') : mapGet st'.1 q = mapGet st.1 q :=
  forEach_inv (childStep i ifs) (fun t => mapGet t.1 q = mapGet st.1 q) s
    (fun t x t' hx ht hstep => by
      have hqx : q ≠ x := fun heq => hq (heq ▸ hx)
      exact (childStep_frame_ne i ifs t t' x q hqx
        (fun hv ch hch => hnames hv x hx ch hch) hstep).trans ht)
    st st' rfl h

/-- The child-type rules on the child loop of a bond, bridge or vlan. The
message is recorded in every case; what is said about `Child2Parent` needs,
for a vlan, that no other listed child is defined with the name in question
as its `Name` and, for the claimed child, that it is listed once. -/
theorem childLoop_type_rules (i : Interface) (ifs : List (String × Interface))
    (s : List String) (st st' : List (String × List String) × Err)
    (h3 : i.Type_ = "bond" ∨ i.Type_ = "bridge" ∨ i.Type_ = "vlan")
    (hf : forEach (childStep i ifs) st s = .ok st') :
    (∀ X childX, X ∈ s → mapGet ifs X = some childX → Illegal i childX →
      typeMsg i childX ∈ st'.2.msgs ∧
      ((i.Type_ = "vlan" →
          ∀ c ∈ s, ∀ ch, mapGet ifs c = some ch → c ≠ X → ch.Name ≠ X) →
        mapGet st'.1 X = mapGet st.1 X)) ∧
    (∀ Y, Y ∈ s → Legal i ifs Y → mapGet st.1 Y = none →
      (i.Type_ = "vlan" →
        (∀ c ∈ s, ∀ ch, mapGet ifs c = some ch → c ≠ Y → ch.Name ≠ Y) ∧ s.count Y = 1) →
      mapGet st'.1 Y = some [i.Name]) := by
  have hillegal : ∀ (t : List (String × List String) × Err) X childX,
      mapGet ifs X = some childX → Illegal i childX →
      childStep i ifs t X =
        .ok (t.1, t.2.Errorf (typeMsg i childX).format (typeMsg i childX).args) := by
    intro t X childX hdef hbad
    rcases childStep_cases i ifs t X h3 with ⟨hnone, _⟩ | ⟨c, hc, _, hs⟩ | ⟨c, _, hlegal, _⟩
    · rw [hdef] at hnone
      cases hnone
    · rw [hdef, Option.some.injEq] at hc
      subst hc
      exact hs
    · exact absurd hlegal (not_legal_of_illegal i childX ifs X hdef hbad)
  refine ⟨?_, ?_⟩
  · intro X childX hX hdef hbad
    constructor
    · obtain ⟨s1, hs1, _, hq⟩ := forEach_reach (childStep i ifs) s X hX
        (fun _ => True) (fun t => typeMsg i childX ∈ t.2.msgs)
        (fun t x _ _ => by
          obtain ⟨t', ht'⟩ := childStep_returns i ifs t x h3
          exact ⟨t', ht', trivial⟩)
        (fun t t' _ hstep => by
          rw [hillegal t X childX hdef hbad, Outcome.ok.injEq] at hstep
          subst hstep
          simp [Err.Errorf, typeMsg])
        (fun t x t' _ hq hstep => childStep_msgs i ifs t t' x hstep _ hq)
        st trivial
      rw [hf, Outcome.ok.injEq] at hs1
      exact hs1 ▸ hq
    · intro hnames
      exact forEach_inv (childStep i ifs) (fun t => mapGet t.1 X = mapGet st.1 X) s
        (fun t x t' hx ht hstep => by
          by_cases hxX : x = X
          · subst hxX
            rw [hillegal t x childX hdef hbad, Outcome.ok.injEq] at hstep
            subst hstep
            exact ht
          · have hXx : X ≠ x := fun heq => hxX heq.symm
            exact (childStep_frame_ne i ifs t t' x X hXx
              (fun hv ch hch => hnames hv x hx ch hch hxX) hstep).trans ht)
        st st' rfl hf
  · intro Y hY hlegal hfree hone
    by_cases hex : i.Type_ = "bond" ∨ i.Type_ = "bridge"
    · exact ((forEach_exclusive_lookup i ifs hex s st st' hf Y).2 hfree).1 ⟨hY, hlegal⟩
    · have hv : i.Type_ = "vlan" := by
        rcases h3 with hb | hb | hb
        · exact absurd (Or.inl hb) hex
        · exact absurd (Or.inr hb) hex
        · exact hb
      obtain ⟨hnames, hcount⟩ := hone hv
      obtain ⟨pre, post, hsplit, hpre, hpost⟩ := split_of_count_one s Y hcount
      subst hsplit
      obtain ⟨sa, sb, ha, hb, hc⟩ := forEach_split (childStep i ifs) pre post Y st st' hf
      have hna : mapGet sa.1 Y = none :=
        (forEach_frame_ne i ifs pre Y hpre
          (fun _ c hcmem ch hch => hnames c (List.mem_append_left _ hcmem) ch hch
            (fun heq => hpre (heq ▸ hcmem))) st sa ha).trans hfree
      have hsb : mapGet sb.1 Y = some [i.Name] := by
        rcases childStep_cases i ifs sa Y h3 with ⟨hnone, _⟩ | ⟨c, hcd, hbad, _⟩ |
            ⟨c, _, _, hs⟩
        · obtain ⟨c, hcd, _⟩ := hlegal
          rw [hcd] at hnone
          cases hnone
        · exact absurd hlegal (not_legal_of_illegal i c ifs Y hcd hbad)
        · rw [hs] at hb
          unfold claimChild at hb
          simp only [hna, Outcome.ok.injEq] at hb
          subst hb
          exact mapGet_mapSet_self _ _ _
      exact (forEach_frame_ne i ifs post Y hpost
        (fun _ c hcmem ch hch =>
          hnames c (List.mem_append_right _ (List.mem_cons_of_mem _ hcmem)) ch hch
            (fun heq => hpost (heq ▸ hcmem))) sb st' hc).trans
        hsb

/-! ## Lemmas: termination of `cyclic` -/

/-- A loop whose steps return under `f` returns the same under any `g` that
agrees with `f` wherever `f` returns. -/
theorem forEach_mono {σ α : Type} (f g : σ → α → Outcome σ) (as : List α)
    (h : ∀ s a s', a ∈ as → f s a = .ok s' → g s a = .ok s') :
    ∀ s s', forEach f s as = .ok s' → forEach g s as = .ok s' := by
  induction as with
  | nil => intro s s' hf; simpa [forEach] using hf
  | cons a as ih =>
    intro s s' hf
    simp only [forEach] at hf ⊢
    cases hfa : f s a with
    | ok s1 =>
      rw [hfa] at hf
      rw [h s a s1 (List.mem_cons_self _ _) hfa]
      exact ih (fun s a s' ha => h s a s' (List.mem_cons_of_mem _ ha)) s1 s' hf
    | panic => rw [hfa] at hf; cases hf
    | fuel => rw [hfa] at hf; cases hf

/-- More fuel does not change what `cyclic` returns. -/
theorem cyclic_fuel_succ (c2p : List (String × List String)) :
    ∀ (n : Nat) (intf : String) (working : List String) (st r : List String × Err),
      cyclic c2p n intf working st = .ok r → cyclic c2p (n + 1) intf working st = .ok r := by
  intro n
  induction n with
  | zero => intro intf working st r h; simp [cyclic] at h
  | succ n ih =>
    intro intf working st r h
    rw [cyclic] at h ⊢
    by_cases hclean : intf ∈ st.1
    · simpa only [hclean, if_true] using h
    · simp only [hclean, if_false] at h ⊢
      cases hget : mapGet c2p intf with
      | none => simpa only [hget] using h
      | some next =>
        simp only [hget] at h ⊢
        by_cases hw : intf ∈ working
        · simpa only [hw, if_true] using h
        · simp only [hw, if_false] at h ⊢
          exact forEach_mono _ _ next
            (fun s m s' _ hstep => ih m (working ++ [intf]) s s' hstep) st r h

theorem cyclic_fuel_le (c2p : List (String × List String)) (n m : Nat) (hnm : n ≤ m)
    (intf : String) (working : List String) (st r : List String × Err)
    (h : cyclic c2p n intf working st = .ok r) : cyclic c2p m intf working st = .ok r := by
  induction hnm with
  | refl => exact h
  | step _ ih => exact cyclic_fuel_succ c2p _ intf working st r ih

/-- Narrowing a filter at an element it used to keep shortens the result. -/
theorem length_filter_lt (p q : String → Bool) (l : List String) (a : String)
    (hpq : ∀ x, q x = true → p x = true) (ha : a ∈ l) (hpa : p a = true)
    (hqa : q a = false) : (l.filter q).length < (l.filter p).length := by
  induction l with
  | nil => cases ha
  | cons x xs ih =>
    have hle : (xs.filter q).length ≤ (xs.filter p).length := by
      have : (xs.filter q).Sublist (xs.filter p) := by
        have hq : xs.filter q = (xs.filter p).filter q := by
          rw [List.filter_filter]
          apply List.filter_congr
          intro y _
          cases hy : q y with
          | false => simp
          | true => simp [hpq y hy]
        rw [hq]
        exact List.filter_sublist _
      exact this.length_le
    rcases List.mem_cons.mp ha with hax | hax
    · subst hax
      simp only [List.filter_cons, hpa, hqa, if_true, List.length_cons]
      simp only [Bool.false_eq_true, if_false]
      omega
    · have := ih hax
      cases hqx : q x with
      | true =>
        simp only [List.filter_cons, hqx, hpq x hqx, if_true, List.length_cons]
        omega
      | false =>
        cases hpx : p x with
        | true =>
          simp only [List.filter_cons, hqx, hpx, if_true, List.length_cons,
            Bool.false_eq_true, if_false]
          omega
        | false =>
          simp only [List.filter_cons, hqx, hpx, Bool.false_eq_true, if_false]
          exact this

/-- With more fuel than keys of `Child2Parent` off the working path, `cyclic`
returns: every recursive call puts one more key on the path. -/
theorem cyclic_returns_unvisited (c2p : List (String × List String)) :
    ∀ (fuel : Nat) (intf : String) (working : List String) (st : List String × Err),
      ((mapKeys c2p).filter (fun k => decide (k ∉ working))).length < fuel →
      ∃ r, cyclic c2p fuel intf working st = .ok r := by
  intro fuel
  induction fuel with
  | zero => intro intf working st h; omega
  | succ n ih =>
    intro intf working st hlen
    rw [cyclic]
    by_cases hclean : intf ∈ st.1
    · exact ⟨st, by simp only [hclean, if_true]⟩
    · simp only [hclean, if_false]
      cases hget : mapGet c2p intf with
      | none => exact ⟨_, rfl⟩
      | some next =>
        by_cases hw : intf ∈ working
        · exact ⟨(st.1, st.2.Errorf fmtCycle [.str intf, .strs working]), by
            simp only [hw, if_true]⟩
        · simp only [hw, if_false]
          have hlt : ((mapKeys c2p).filter (fun k => decide (k ∉ working ++ [intf]))).length <
              ((mapKeys c2p).filter (fun k => decide (k ∉ working))).length :=
            length_filter_lt _ _ (mapKeys c2p) intf
              (fun x hx => by
                simp only [List.mem_append, List.mem_singleton, not_or,
                  decide_eq_true_eq] at hx ⊢
                exact hx.1)
              (mapGet_some_mem_keys c2p intf next hget)
              (by simpa using hw) (by simp)
          obtain ⟨r, hr, _⟩ := forEach_ok
            (fun s m => cyclic c2p n m (working ++ [intf]) s) (fun _ => True) next
            (fun s m _ _ => by
              obtain ⟨r, hr⟩ := ih m (working ++ [intf]) s (by omega)
              exact ⟨r, hr, trivial⟩) st trivial
          exact ⟨r, hr⟩

/-! ## Claims about `Layout.Validate` and `Interface.validate` -/

/-- C1 (the code diverges): on the Layout holding one bond `b0` whose child `x`
is undefined, `Interface.validate` of `b0` returns the error
"refers to undefined sub interface", yet `Layout.Validate` returns no error for
every visiting order: the result of `v.validate(l)` is dropped. -/
theorem Validate_drops_interface_errors (order : List String) :
    (ifaceAt layoutDangling.Interfaces "b0").validate
        { layoutDangling with Roots := [], Child2Parent := [] } =
      .ok (ifaceAt layoutDangling.Interfaces "b0", layoutDangling,
        some { Prefix := "bond:b0",
               msgs := [{ format := fmtUndefined,
                          args := [.str "bond", .str "b0", .str "x"] }] }) ∧
    layoutDangling.Validate order = .ok (layoutDangling, none) := by
  refine ⟨by decide, ?_⟩
  have hpass : perInterfacePass layoutDangling = .ok layoutDangling := by decide
  obtain ⟨clean, hc⟩ := cyclePhase_nil { Prefix := "layout" } order
  simp only [Layout.Validate, hpass]
  have hc2 : layoutDangling.Child2Parent = [] := rfl
  rw [hc2, hc]
  rfl

/-- C2 (the code diverges): in `layoutCycle` the per-interface pass builds
`Child2Parent = {vl1: [br0], br0: [vl0, vl1]}`, which holds the cycle
`br0 -> vl1 -> br0`, and `Layout.Validate` returns no error for every order in
which the cycle phase can visit the three keys. -/
theorem Validate_misses_cycle :
    Relation.TransGen (Owns [("vl1", ["br0"]), ("br0", ["vl0", "vl1"])]) "br0" "br0" ∧
    ∀ order ∈ List.permutations ["br0", "vl0", "vl1"],
      layoutCycle.Validate order =
        .ok ({ layoutCycle with
                Child2Parent := [("vl1", ["br0"]), ("br0", ["vl0", "vl1"])] }, none) := by
  have hperm : List.permutations ["br0", "vl0", "vl1"] =
      [["br0", "vl0", "vl1"], ["vl0", "br0", "vl1"], ["vl1", "vl0", "br0"],
       ["vl0", "vl1", "br0"], ["vl1", "br0", "vl0"], ["br0", "vl1", "vl0"]] := by
    simp [List.permutations, List.permutationsAux_cons, List.permutationsAux_nil,
      List.permutationsAux2]
  have h1 : Owns [("vl1", ["br0"]), ("br0", ["vl0", "vl1"])] "br0" "vl1" :=
    ⟨["vl0", "vl1"], by decide, by decide⟩
  have h2 : Owns [("vl1", ["br0"]), ("br0", ["vl0", "vl1"])] "vl1" "br0" :=
    ⟨["br0"], by decide, by decide⟩
  refine ⟨Relation.TransGen.tail (Relation.TransGen.single h1) h2, ?_⟩
  rw [hperm]
  decide

/-- C3: cycle detection has no false positives. When the per-interface pass of
a Layout returns and the `Child2Parent` it built has no cycle, the cycle phase
(run from every name of any visiting order, with an empty working path)
returns with an empty error accumulator, and `Layout.Validate` returns no
error. -/
theorem cyclic_no_false_positive (l l1 : Layout) (order : List String)
    (hpass : perInterfacePass l = .ok l1) (hac : Acyclic l1.Child2Parent) :
    (∃ clean, cyclePhase l1.Child2Parent { Prefix := "layout" } order =
        .ok (clean, { Prefix := "layout" })) ∧
      l.Validate order = .ok ({ l1 with Roots := sortStrings l1.Roots }, none) :=
  Validate_of_pass_acyclic l l1 order hpass hac

/-- C3 at the acyclic diamond (physical `C`, vlans `V1` and `V2` on `C`): the
pass builds `Child2Parent = {C: [V1, V2]}`, which is acyclic, and
`Layout.Validate` returns no error. -/
theorem cyclic_no_false_positive_witness :
    perInterfacePass layoutDiamond =
        .ok { layoutDiamond with Child2Parent := [("C", ["V1", "V2"])], Roots := ["C"] } ∧
    Acyclic [("C", ["V1", "V2"])] ∧
    layoutDiamond.Validate ["C", "V1", "V2"] =
        .ok ({ layoutDiamond with Child2Parent := [("C", ["V1", "V2"])], Roots := ["C"] },
             none) := by
  have hpass : perInterfacePass layoutDiamond =
      .ok { layoutDiamond with Child2Parent := [("C", ["V1", "V2"])], Roots := ["C"] } := by
    decide
  have hac : Acyclic [("C", ["V1", "V2"])] := by
    apply acyclic_of_leaves
    intro a ps b hps hb
    by_cases ha : "C" = a
    · simp only [mapGet, ha, if_true, Option.some.injEq] at hps
      subst hps
      have hbC : ¬ "C" = b := by
        rcases List.mem_cons.mp hb with h | h
        · subst h; decide
        · rw [List.mem_singleton] at h
          subst h; decide
      simp [mapGet, hbC]
    · simp [mapGet, ha] at hps
  exact ⟨hpass, hac,
    (cyclic_no_false_positive layoutDiamond _ ["C", "V1", "V2"] hpass hac).2⟩

/-- C4 (the code diverges): the bond `b0` of `layoutChildlessBond` declares zero
children, and after `Layout.Validate` (any visiting order, no error returned)
`Roots` is empty: `Interface.validate` appends to `Roots` for physical
interfaces only. -/
theorem Validate_childless_bond_not_root (order : List String) :
    layoutChildlessBond.Validate order = .ok (layoutChildlessBond, none) ∧
    (ifaceAt layoutChildlessBond.Interfaces "b0").Interfaces = [] ∧
    layoutChildlessBond.Roots = [] := by
  refine ⟨?_, by decide, by decide⟩
  have hpass : perInterfacePass layoutChildlessBond = .ok layoutChildlessBond := by decide
  obtain ⟨clean, hc⟩ := cyclePhase_nil { Prefix := "layout" } order
  simp only [Layout.Validate, hpass]
  have hc2 : layoutChildlessBond.Child2Parent = [] := rfl
  rw [hc2, hc]
  rfl

/-- C5 (the code diverges): `Interface.validate` of a physical interface with
no children and an empty `CurrentHwAddr` returns no error in every Layout
state; it only appends the name to `Roots`. -/
theorem validate_physical_ignores_hwaddr (l : Layout) :
    physicalNoHwAddr.CurrentHwAddr = [] ∧
    physicalNoHwAddr.validate l =
      .ok (physicalNoHwAddr, { l with Roots := l.Roots ++ ["eth0"] }, none) := by
  refine ⟨rfl, ?_⟩
  simp [Interface.validate, physicalNoHwAddr, Err.OrNil, Err.Empty]

/-- C6 as stated fails: the bond `bondTwice` lists the physical `eth0` twice
and `Child2Parent[eth0]` is absent before the call. The first visit claims
`eth0`, so the entry is present with one owner when validation reaches `eth0`
again; the call returns the ownership-conflict error and leaves
`Child2Parent[eth0] = [b0]`, which is not what it was before the call. -/
theorem conflict_with_own_claim :
    mapGet layoutBondTwice.Child2Parent "eth0" = none ∧
    forEach (childStep bondTwice layoutBondTwice.Interfaces)
        (layoutBondTwice.Child2Parent, { Prefix := "bond:b0" }) ["eth0"] =
      .ok ([("eth0", ["b0"])], { Prefix := "bond:b0" }) ∧
    bondTwice.validate layoutBondTwice =
      .ok (bondTwice, { layoutBondTwice with Child2Parent := [("eth0", ["b0"])] },
           some { Prefix := "bond:b0",
                  msgs := [conflictMsg (ifaceAt layoutBondTwice.Interfaces "eth0")
                             bondTwice bondTwice] }) := by
  decide

/-- C6 (amended): exclusive ownership is atomic. Let a bond or bridge `B` list
a child `C`, defined and of a type `B` may own, and let validation reach `C`:
the sorted child list is `pre ++ C :: post` and the loop over `pre` has left
the state `sa`. If `Child2Parent[C]` is then present with at least one owner,
`Interface.validate` on `B` returns an error holding the ownership-conflict
message for every such owner, and `Child2Parent[C]` after the call is the list
it was when validation reached `C`; that is the list it was before the call
whenever the entry was present before the call. -/
theorem exclusive_conflict_atomic (B : Interface) (l : Layout) (C : String)
    (child : Interface) (ps pre post : List String)
    (sa : List (String × List String) × Err)
    (hB : B.Type_ = "bond" ∨ B.Type_ = "bridge")
    (hsplit : sortStrings B.Interfaces = pre ++ C :: post)
    (hreach : forEach (childStep { B with Interfaces := sortStrings B.Interfaces } l.Interfaces)
        (l.Child2Parent, { Prefix := B.Type_ ++ ":" ++ B.MatchID }) pre = .ok sa)
    (hdef : mapGet l.Interfaces C = some child)
    (hbond : B.Type_ = "bond" → child.Type_ = "physical")
    (hbridge : B.Type_ = "bridge" → child.Type_ ≠ "bridge")
    (hown : mapGet sa.1 C = some ps) (hne : ps ≠ []) :
    ∃ B' l' err, B.validate l = .ok (B', l', some err) ∧
      (∀ o ∈ ps, conflictMsg child (ifaceAt l.Interfaces o) B ∈ err.msgs) ∧
      mapGet l'.Child2Parent C = some ps ∧
      (∀ qs, mapGet l.Child2Parent C = some qs → qs = ps) := by
  have hphys : B.Type_ ≠ "physical" := by
    rcases hB with h | h <;> rw [h] <;> decide
  -- the visit of `C`
  obtain ⟨s2, h2, hkeep2, hm2⟩ := claimChild_exclusive
    { B with Interfaces := sortStrings B.Interfaces } child l.Interfaces sa C hB
  have hstepC : childStep { B with Interfaces := sortStrings B.Interfaces } l.Interfaces sa C =
      .ok s2 := by
    rw [childStep_exclusive_claim { B with Interfaces := sortStrings B.Interfaces } child
      l.Interfaces sa C hB hdef hbond hbridge]
    exact h2
  -- the visits after it
  obtain ⟨s3, h3, hown3, hmsg3⟩ := forEach_ok
    (childStep { B with Interfaces := sortStrings B.Interfaces } l.Interfaces)
    (fun s => mapGet s.1 C = some ps ∧
      ∀ o ∈ ps, conflictMsg child (ifaceAt l.Interfaces o) B ∈ s.2.msgs) post
    (fun s x _ hs => by
      obtain ⟨s1, h1, hk⟩ := childStep_exclusive
        { B with Interfaces := sortStrings B.Interfaces } l.Interfaces s x hB
      exact ⟨s1, h1, hk C ps hs.1,
        fun o ho => childStep_msgs _ l.Interfaces s s1 x h1 _ (hs.2 o ho)⟩)
    s2 ⟨hkeep2 C ps hown, hm2 ps hown⟩
  have hwhole : forEach
      (childStep { B with Interfaces := sortStrings B.Interfaces } l.Interfaces)
      (l.Child2Parent, { Prefix := B.Type_ ++ ":" ++ B.MatchID })
      (sortStrings B.Interfaces) = .ok s3 := by
    refine (congrArg (fun xs => forEach
      (childStep { B with Interfaces := sortStrings B.Interfaces } l.Interfaces)
      (l.Child2Parent, { Prefix := B.Type_ ++ ":" ++ B.MatchID }) xs) hsplit).trans ?_
    simp only [forEach_append, hreach, forEach, hstepC, h3]
  obtain ⟨o, ho⟩ := List.exists_mem_of_ne_nil ps hne
  obtain ⟨c, e⟩ := s3
  refine ⟨{ B with Interfaces := sortStrings B.Interfaces },
    { l with Child2Parent := c }, e, ?_, hmsg3, hown3, ?_⟩
  · rw [validate_nonphysical B l hphys, hwhole]
    simp only [OrNil_of_mem e _ (hmsg3 o ho)]
  · intro qs hqs
    have hsa := (forEach_exclusive_lookup
      { B with Interfaces := sortStrings B.Interfaces } l.Interfaces hB pre _ sa hreach C).1
      qs hqs
    rw [hown, Option.some.injEq] at hsa
    exact hsa.symm

/-- C6 (amended) at a bond `b1` claiming `eth0`, which the bond `b0` owns before
the call: the conflict is reported and `Child2Parent[eth0]` stays `[b0]`. -/
theorem exclusive_conflict_atomic_witness :
    ∃ B' l' err,
      Interface.validate { Type_ := "bond", MatchID := "b1", Name := "b1", Interfaces := ["eth0"] }
          { layoutEnslaved with Child2Parent := [("eth0", ["b0"])] } = .ok (B', l', some err) ∧
      (∀ o ∈ ["b0"],
        conflictMsg (ifaceAt layoutEnslaved.Interfaces "eth0")
          (ifaceAt layoutEnslaved.Interfaces o)
          { Type_ := "bond", MatchID := "b1", Name := "b1", Interfaces := ["eth0"] } ∈ err.msgs) ∧
      mapGet l'.Child2Parent "eth0" = some ["b0"] ∧
      (∀ qs, mapGet [("eth0", ["b0"])] "eth0" = some qs → qs = ["b0"]) :=
  exclusive_conflict_atomic
    { Type_ := "bond", MatchID := "b1", Name := "b1", Interfaces := ["eth0"] }
    { layoutEnslaved with Child2Parent := [("eth0", ["b0"])] } "eth0"
    (ifaceAt layoutEnslaved.Interfaces "eth0") ["b0"] [] []
    ([("eth0", ["b0"])], { Prefix := "bond:b1" })
    (Or.inl rfl) (by decide) (by decide) (by decide) (fun _ => by decide)
    (fun h => absurd h (by decide)) (by decide) (by decide)

/-- C7 (the code diverges): three vlans `v1`, `v2`, `v3` each list the physical
`eth0` once and nothing else lists it; after `Layout.Validate` (any visiting
order, no error returned) `Child2Parent[eth0]` is `[v1, v2, v3, v3]`: the
third vlan is appended once per owner already present. -/
theorem Validate_repeats_vlan_owner (order : List String) :
    layoutThreeVlans.Validate order =
      .ok ({ layoutThreeVlans with
              Child2Parent := [("eth0", ["v1", "v2", "v3", "v3"])],
              Roots := ["eth0"] }, none) := by
  have hpass : perInterfacePass layoutThreeVlans =
      .ok { layoutThreeVlans with
              Child2Parent := [("eth0", ["v1", "v2", "v3", "v3"])],
              Roots := ["eth0"] } := by decide
  have hac : Acyclic [("eth0", ["v1", "v2", "v3", "v3"])] :=
    acyclic_single _ _ (by decide)
  rw [(Validate_of_pass_acyclic _ _ order hpass hac).2]
  decide

/-- C8 as stated fails: in `layoutKeyNotName` (a vlan stored under key `b` but
named `z`, a bond stored under key `z`) `Layout.Validate` returns no error and
leaves `Child2Parent[C] = [a, z]`, a list of length two holding the name of a
bond. -/
theorem sole_owner_fails_off_key :
    layoutKeyNotName.Validate ["C", "a", "b", "z"] =
      .ok ({ layoutKeyNotName with
              Child2Parent := [("C", ["a", "z"])], Roots := ["C"] }, none) ∧
    ¬ SoleExclusiveOwner { layoutKeyNotName with
              Child2Parent := [("C", ["a", "z"])], Roots := ["C"] } := by
  refine ⟨by decide, ?_⟩
  intro h
  have h1 := (h "C" ["a", "z"] (by decide)).1 "z" (by decide) (Or.inl (by decide))
  exact absurd h1 (by decide)

/-- C9 (the code diverges): in `layoutEnslaved` the bond `b0` claims `eth0`
(`Child2Parent[eth0] = [b0]` after `Layout.Validate`, any visiting order, no
error returned), and `Interfaces[eth0].Network` is still the DHCP
configuration it carried before: the live path never clears it. -/
theorem Validate_keeps_enslaved_network (order : List String) :
    layoutEnslaved.Validate order =
      .ok ({ layoutEnslaved with
              Child2Parent := [("eth0", ["b0"])], Roots := ["eth0"] }, none) ∧
    (ifaceAt layoutEnslaved.Interfaces "b0").Type_ = "bond" ∧
    (ifaceAt layoutEnslaved.Interfaces "eth0").Network = some { Dhcp4 := true } := by
  refine ⟨?_, by decide, by decide⟩
  have hpass : perInterfacePass layoutEnslaved =
      .ok { layoutEnslaved with
              Child2Parent := [("eth0", ["b0"])], Roots := ["eth0"] } := by decide
  have hac : Acyclic [("eth0", ["b0"])] := acyclic_single _ _ (by decide)
  rw [(Validate_of_pass_acyclic _ _ order hpass hac).2]
  decide

/-- C10 as stated fails: in the state `layoutShadow` the vlan `v1` lists the
undefined name `eth9` and the defined child `eth0`, whose `Name` is `eth9` and
which the vlan `v0` already owns. `Interface.validate` on `v1` reports the
undefined name and creates the entry `Child2Parent[eth9] = [v1]`. -/
theorem undefined_child_gets_entry :
    mapGet layoutShadow.Interfaces "eth9" = none ∧
    mapGet layoutShadow.Child2Parent "eth9" = none ∧
    vlanShadow.validate layoutShadow =
      .ok (vlanShadow,
           { layoutShadow with Child2Parent := [("eth0", ["v0"]), ("eth9", ["v1"])] },
           some { Prefix := "vlan:v1", msgs := [undefinedMsg vlanShadow "eth9"] }) := by
  decide

/-- C8 (amended): for every Layout in which each key of `Interfaces` is the
`Name` of the interface stored under it, whenever `Layout.Validate` returns,
every `Child2Parent` list that holds the name of a bond or bridge has length
one, and every list longer than one element holds names of vlans only. -/
theorem sole_exclusive_owner (l l' : Layout) (order : List String) (err : Option Err)
    (hkeys : KeysAreNames l.Interfaces) (hret : l.Validate order = .ok (l', err)) :
    SoleExclusiveOwner l' := by
  obtain ⟨l1, hpass, hl'⟩ := pass_of_Validate l l' order err hret
  obtain ⟨_, hown⟩ := pass_ownersOk l l1 hkeys hpass
  subst hl'
  intro C ps hC
  rcases hown C ps hC with ⟨x, hx⟩ | hall
  · subst hx
    exact ⟨fun _ _ _ => rfl, fun hlen => absurd hlen (by simp)⟩
  · refine ⟨fun p hp hty => ?_, fun _ => hall⟩
    have hv : (ifaceAt l1.Interfaces p).Type_ = "vlan" := hall p hp
    simp only [] at hty
    rw [hv] at hty
    exact absurd hty (by decide)

/-- C8 (amended) at `layoutEnslaved`, whose keys are names: `Layout.Validate`
returns and the bond `b0` is the sole owner of `eth0`. -/
theorem sole_exclusive_owner_witness :
    KeysAreNames layoutEnslaved.Interfaces ∧
    layoutEnslaved.Validate ["b0", "eth0"] =
      .ok ({ layoutEnslaved with
              Child2Parent := [("eth0", ["b0"])], Roots := ["eth0"] }, none) ∧
    SoleExclusiveOwner { layoutEnslaved with
              Child2Parent := [("eth0", ["b0"])], Roots := ["eth0"] } :=
  have hk : KeysAreNames layoutEnslaved.Interfaces :=
    keysAreNames_of_forall _ (by decide)
  have hv : layoutEnslaved.Validate ["b0", "eth0"] =
      .ok ({ layoutEnslaved with
              Child2Parent := [("eth0", ["b0"])], Roots := ["eth0"] }, none) := by decide
  ⟨hk, hv, sole_exclusive_owner layoutEnslaved _ ["b0", "eth0"] none hk hv⟩

/-- C10 (amended): undefined references are reported without stopping. For a
bond, bridge or vlan `I` and a name `U` in `I.Interfaces` that is not a key of
`Layout.Interfaces`, `Interface.validate` on `I` returns an error holding the
undefined-reference message for `U` and builds the same `Child2Parent` as
validating `I` with `U` removed from its child list; it leaves
`Child2Parent[U]` as it was (no entry is created) provided, when `I` is a
vlan, that no child defined and listed by `I` carries `U` as its `Name`. -/
theorem undefined_child_reported (I : Interface) (l : Layout) (U : String)
    (hI : I.Type_ = "bond" ∨ I.Type_ = "bridge" ∨ I.Type_ = "vlan")
    (hU : U ∈ I.Interfaces) (hundef : mapGet l.Interfaces U = none) :
    ∃ I' l' err, I.validate l = .ok (I', l', some err) ∧
      undefinedMsg I U ∈ err.msgs ∧
      ((I.Type_ = "vlan" →
          ∀ c ∈ I.Interfaces, ∀ ch, mapGet l.Interfaces c = some ch → ch.Name ≠ U) →
        mapGet l'.Child2Parent U = mapGet l.Child2Parent U) ∧
      ∃ I'' l'' err'',
        Interface.validate
          { I with Interfaces := I.Interfaces.filter (fun n => decide (n ≠ U)) } l =
            .ok (I'', l'', err'') ∧
        l''.Child2Parent = l'.Child2Parent := by
  have hphys : I.Type_ ≠ "physical" := by
    rcases hI with h | h | h <;> rw [h] <;> decide
  obtain ⟨s1, hs1, _, hmsg⟩ := forEach_reach
    (childStep { I with Interfaces := sortStrings I.Interfaces } l.Interfaces)
    (sortStrings I.Interfaces) U ((mem_sortStrings _ _).mpr hU)
    (fun _ => True)
    (fun s => undefinedMsg I U ∈ s.2.msgs)
    (fun s x _ _ => by
      obtain ⟨s', hs'⟩ := childStep_returns
        { I with Interfaces := sortStrings I.Interfaces } l.Interfaces s x hI
      exact ⟨s', hs', trivial⟩)
    (fun s s' _ hstep => by
      rw [childStep_undefined _ l.Interfaces s U hundef, Outcome.ok.injEq] at hstep
      subst hstep
      simp [Err.Errorf, undefinedMsg])
    (fun s x s' _ hq hstep => childStep_msgs _ l.Interfaces s s' x hstep _ hq)
    (l.Child2Parent, { Prefix := I.Type_ ++ ":" ++ I.MatchID }) trivial
  have hframe : (I.Type_ = "vlan" →
        ∀ c ∈ I.Interfaces, ∀ ch, mapGet l.Interfaces c = some ch → ch.Name ≠ U) →
      mapGet s1.1 U = mapGet l.Child2Parent U := by
    intro hname
    exact forEach_inv
      (childStep { I with Interfaces := sortStrings I.Interfaces } l.Interfaces)
      (fun s => mapGet s.1 U = mapGet l.Child2Parent U) (sortStrings I.Interfaces)
      (fun s x s' hx hs hstep => by
        by_cases hxU : x = U
        · rw [hxU, childStep_undefined _ l.Interfaces s U hundef, Outcome.ok.injEq] at hstep
          subst hstep
          exact hs
        · exact (childStep_frame_ne _ l.Interfaces s s' x U (fun h => hxU h.symm)
            (fun hv ch hch => hname hv x ((mem_sortStrings _ _).mp hx) ch hch) hstep).trans hs)
      (l.Child2Parent, { Prefix := I.Type_ ++ ":" ++ I.MatchID }) s1 rfl hs1
  obtain ⟨s', t', hs', ht', hR⟩ := forEach_filter_undefined
    { I with Interfaces := sortStrings I.Interfaces } l.Interfaces U hI hundef
    (sortStrings I.Interfaces)
    (l.Child2Parent, { Prefix := I.Type_ ++ ":" ++ I.MatchID })
    (l.Child2Parent, { Prefix := I.Type_ ++ ":" ++ I.MatchID }) rfl
  rw [hs1, Outcome.ok.injEq] at hs'
  subst hs'
  obtain ⟨c1, e1⟩ := s1
  obtain ⟨c2, e2⟩ := t'
  refine ⟨{ I with Interfaces := sortStrings I.Interfaces },
    { l with Child2Parent := c1 }, e1, ?_, hmsg, hframe,
    { I with Interfaces := sortStrings (I.Interfaces.filter (fun n => decide (n ≠ U))) },
    { l with Child2Parent := c2 }, e2.OrNil, ?_, hR.symm⟩
  · rw [validate_nonphysical I l hphys, hs1]
    simp only [OrNil_of_mem e1 _ hmsg]
  · have hv := validate_nonphysical
      { I with Interfaces := I.Interfaces.filter (fun n => decide (n ≠ U)) } l hphys
    simp only [] at hv
    rw [hv,
      childStep_congr
        { I with Interfaces := sortStrings (I.Interfaces.filter (fun n => decide (n ≠ U))) }
        { I with Interfaces := sortStrings I.Interfaces } rfl rfl,
      sortStrings_filter, ht']

/-- C10 (amended) at a vlan listing the physical `eth0` and the undefined name
`eth7` in `layoutTwice`, where every child is stored under its own name: the
call reports `eth7`, creates no entry for it, and builds the `Child2Parent` it
builds for the child list `[eth0]`. -/
theorem undefined_child_reported_witness :
    ∃ I' l' err,
      Interface.validate
          { Type_ := "vlan", MatchID := "v1", Name := "v1", Interfaces := ["eth7", "eth0"] }
          layoutTwice = .ok (I', l', some err) ∧
      undefinedMsg
          { Type_ := "vlan", MatchID := "v1", Name := "v1", Interfaces := ["eth7", "eth0"] }
          "eth7" ∈ err.msgs ∧
      mapGet l'.Child2Parent "eth7" = none ∧
      ∃ I'' l'' err'',
        Interface.validate
          { Type_ := "vlan", MatchID := "v1", Name := "v1", Interfaces := ["eth0"] }
          layoutTwice = .ok (I'', l'', err'') ∧
        l''.Child2Parent = l'.Child2Parent := by
  obtain ⟨I', l', err, hv, hmsg, hframe, hrest⟩ := undefined_child_reported
    { Type_ := "vlan", MatchID := "v1", Name := "v1", Interfaces := ["eth7", "eth0"] }
    layoutTwice "eth7" (Or.inr (Or.inr rfl)) (by decide) (by decide)
  refine ⟨I', l', err, hv, hmsg, ?_, hrest⟩
  exact hframe (fun _ c _ ch hch hname => by
    have hkey := keysAreNames_of_forall layoutTwice.Interfaces (by decide) c ch hch
    have hnone : mapGet layoutTwice.Interfaces "eth7" = none := by decide
    rw [hname] at hkey
    rw [← hkey, hnone] at hch
    cases hch)

/-! ## Claims about routes, routing policy and `Network` -/

theorem OrNil_eq_none_iff (e : Err) : e.OrNil = none ↔ e.msgs = [] := by
  cases hm : e.msgs with
  | nil => simp [Err.OrNil, Err.Empty, hm]
  | cons a as => simp [Err.OrNil, Err.Empty, hm]

/-- C13: `Route.validate` returns no error exactly when `Via` is unset or a
single address, a `unicast` route has both `To` and `Via`, and a route of any
other type has `To`. A unicast route with only `To` fails; a blackhole route with
only `To` succeeds. -/
theorem Route_validate_iff (r : Route) :
    (r.validate = none ↔
      ((r.Via = none ∨ ∃ via, r.Via = some via ∧ via.IsCIDR = false) ∧
       (r.Type_ = "unicast" → r.To ≠ none ∧ r.Via ≠ none) ∧
       (r.Type_ ≠ "unicast" → r.To ≠ none))) ∧
    (∀ ip : IP, Route.validate { Type_ := "unicast", To := some ip } ≠ none) ∧
    (∀ ip : IP, Route.validate { Type_ := "blackhole", To := some ip } = none) := by
  refine ⟨?_, ?_, ?_⟩
  · obtain ⟨src, dst, via, onlink, metric, kind, scope, table⟩ := r
    simp only [Route.validate, OrNil_eq_none_iff]
    cases via with
    | none =>
      cases dst <;> by_cases ht : kind = "unicast" <;> simp [ht, Err.Errorf]
    | some v =>
      cases hc : v.IsCIDR <;> cases dst <;> by_cases ht : kind = "unicast" <;>
        simp [ht, hc, Err.Errorf]
  · intro ip
    simp [Route.validate, Err.OrNil, Err.Empty, Err.Errorf]
  · intro ip
    simp [Route.validate, Err.OrNil, Err.Empty, Err.Errorf]

/-- C14 (the code diverges): a route with an empty `Type`, `To` set and `Via`
unset validates cleanly, while the same route with `Type` `unicast` is
rejected: the empty type takes the `default` arm of the switch. -/
theorem Route_empty_type_not_unicast (r : Route) (ip : IP) :
    Route.validate { r with Type_ := "", To := some ip, Via := none } = none ∧
    Route.validate { r with Type_ := "unicast", To := some ip, Via := none } =
      some { Prefix := "Route", msgs := [{ format := fmtUnicast }] } := by
  constructor
  · simp [Route.validate, Err.OrNil, Err.Empty]
  · simp [Route.validate, Err.OrNil, Err.Empty, Err.Errorf]

/-- C15: `RoutePolicy.validate` returns no error exactly when one of `From`
and `To` is set and the other is not, whatever the other fields hold. -/
theorem RoutePolicy_validate_iff (r : RoutePolicy) :
    r.validate = none ↔
      ((r.From ≠ none ∧ r.To = none) ∨ (r.From = none ∧ r.To ≠ none)) := by
  obtain ⟨src, dst, table, priority, fwmark, tos⟩ := r
  simp only [RoutePolicy.validate, OrNil_eq_none_iff]
  cases src <;> cases dst <;> simp [Err.Errorf]

/-- C16: the classification methods of `Network`. For a non-nil receiver they
return the stated Boolean combinations of "DHCP enabled" and "has addresses";
static-only and DHCP-only are never both true and each implies `Configure`; a
Network with DHCP and an address is configured but in neither pure category;
for a nil receiver all three return false and none panics. -/
theorem Network_classification (n : Network) :
    Network.Configure (some n) =
      .ok ((n.Dhcp4 || n.Dhcp6) || decide (0 < n.Addresses.length)) ∧
    Network.SetupStaticOnly (some n) =
      .ok (!(n.Dhcp4 || n.Dhcp6) && decide (0 < n.Addresses.length)) ∧
    Network.SetupDHCPOnly (some n) =
      .ok ((n.Dhcp4 || n.Dhcp6) && !decide (0 < n.Addresses.length)) ∧
    ¬ (Network.SetupStaticOnly (some n) = .ok true ∧
        Network.SetupDHCPOnly (some n) = .ok true) ∧
    (Network.SetupStaticOnly (some n) = .ok true → Network.Configure (some n) = .ok true) ∧
    (Network.SetupDHCPOnly (some n) = .ok true → Network.Configure (some n) = .ok true) ∧
    ((n.Dhcp4 || n.Dhcp6) = true → 0 < n.Addresses.length →
      Network.Configure (some n) = .ok true ∧
      Network.SetupStaticOnly (some n) = .ok false ∧
      Network.SetupDHCPOnly (some n) = .ok false) ∧
    Network.Configure none = .ok false ∧
    Network.SetupStaticOnly none = .ok false ∧
    Network.SetupDHCPOnly none = .ok false := by
  obtain ⟨d4, d6, ident, ra, addrs, g4, g6, ns, routes, policy⟩ := n
  cases d4 <;> cases d6 <;> cases addrs <;>
    simp [Network.Configure, Network.SetupStaticOnly, Network.SetupDHCPOnly,
      Network.configure]

/-- C18 (the code diverges): `Network.validate` on a Network whose `Nameservers`
pointer is nil does not return: whatever the other fields hold and whatever
the helper validators do, it panics at `n.Nameservers.Addresses`. -/
theorem Network_validate_nil_nameservers
    (strIn : Err → String → String → List String → Err)
    (ipList : Err → String → List IP → Bool → Err) (n : Network) :
    Network.validate strIn ipList { n with Nameservers := none } = .panic := by
  simp [Network.validate]

/-! ## Claims about panics, determinism and termination -/

/-- C12 (the code diverges): on `layoutOrder` a first `Layout.Validate` whose
cycle phase visits `br0` first returns no error; a second `Layout.Validate` on
the Layout it left, whose cycle phase visits the same keys starting from
`vl0`, leaves the same `Roots` and `Child2Parent` and returns a
"Cycle detected" error. -/
theorem Validate_error_depends_on_order :
    List.Perm ["vl0", "vl1", "br0", "br9"] ["br0", "br9", "vl0", "vl1"] ∧
    layoutOrder.Validate ["br0", "br9", "vl0", "vl1"] =
      .ok ({ layoutOrder with
              Child2Parent := [("vl1", ["br0"]), ("vl0", ["br9"]), ("br0", ["vl0", "vl1"])] },
           none) ∧
    Layout.Validate
        { layoutOrder with
            Child2Parent := [("vl1", ["br0"]), ("vl0", ["br9"]), ("br0", ["vl0", "vl1"])] }
        ["vl0", "vl1", "br0", "br9"] =
      .ok ({ layoutOrder with
              Child2Parent := [("vl1", ["br0"]), ("vl0", ["br9"]), ("br0", ["vl0", "vl1"])] },
           some { Prefix := "layout",
                  msgs := [{ format := fmtCycle, args := [.str "vl1", .strs ["vl1", "br0"]] },
                           { format := fmtCycle, args := [.str "br0", .strs ["br0", "vl1"]] }] }) := by
  refine ⟨by decide, by decide, by decide⟩

/-- C19 (the code diverges): in `layoutUnknownType` the interface `d0` has the
type `dummy` and lists the defined child `eth0`; `Layout.Validate` reaches the
"Cannot happen" panic of the type switch, for every visiting order. -/
theorem Validate_panics_on_unknown_type (order : List String) :
    layoutUnknownType.Validate order = .panic := by
  have hpass : perInterfacePass layoutUnknownType = .panic := by decide
  simp only [Layout.Validate, hpass]

/-- C20: `Layout.cyclic` terminates on every `Child2Parent` map, start name,
clean set and working path, cycles included. A call that recurses does so on
the working path extended by the visited name, which is a key of
`Child2Parent` and was not on the path (so a path without repeated names stays
so). Hence a recursion depth of one more than the number of keys off the path,
at most the number of keys, is enough, and deeper bounds return the same
result. -/
theorem cyclic_terminates (c2p : List (String × List String)) (intf : String)
    (working : List String) (st : List String × Err) :
    (∀ fuel next, intf ∉ st.1 → mapGet c2p intf = some next → intf ∉ working →
      cyclic c2p (fuel + 1) intf working st =
        forEach (fun s n => cyclic c2p fuel n (working ++ [intf]) s) st next ∧
      intf ∈ mapKeys c2p ∧ (working.Nodup → (working ++ [intf]).Nodup)) ∧
    ((mapKeys c2p).filter (fun k => decide (k ∉ working))).length ≤ (mapKeys c2p).length ∧
    ∃ r, ∀ fuel,
      ((mapKeys c2p).filter (fun k => decide (k ∉ working))).length < fuel →
      cyclic c2p fuel intf working st = .ok r := by
  refine ⟨?_, List.length_filter_le _ _, ?_⟩
  · intro fuel next hclean hget hw
    refine ⟨?_, mapGet_some_mem_keys c2p intf next hget, fun hnd => ?_⟩
    · rw [cyclic]
      simp only [hclean, if_false, hget, hw]
    · rw [List.nodup_append]
      refine ⟨hnd, List.nodup_singleton _, ?_⟩
      intro a ha hb
      rw [List.mem_singleton] at hb
      exact hw (hb ▸ ha)
  · obtain ⟨r, hr⟩ := cyclic_returns_unvisited c2p
      (((mapKeys c2p).filter (fun k => decide (k ∉ working))).length + 1) intf working st
      (Nat.lt_succ_self _)
    exact ⟨r, fun fuel hfuel => cyclic_fuel_le c2p _ fuel hfuel intf working st r hr⟩

/-! ## Claims about child types and repeated children -/

/-- C11 as stated fails, in three ways. The vlan `vlanTwice` (every interface
stored under its own name) lists the vlan `v0` and, twice, the legal, unowned
physical `eth0`: `Interface.validate` reports `v0` and leaves
`Child2Parent[eth0] = [v1, v1]`, not `[v1]`. The vlan `vlanOffKey` lists, once
each, the vlan `v0` and the key `eth0`, under which a physical interface named
`v0` is stored, owned by the vlan `v1`: `Interface.validate` reports `v0` and
creates `Child2Parent[v0] = [v2]`, so the offending child gets the vlan as an
owner. The vlan `vlanOffKeyLegal` lists, once each, the vlan `v0`, the legal,
unowned `eth1` and the key `eth0`, under which a physical interface named
`eth1` is stored, owned by `v1`: `Child2Parent[eth1]` ends as `[v2, v2]`. -/
theorem legal_child_claimed_twice :
    (mapGet layoutTwice.Child2Parent "eth0" = none ∧
     vlanTwice.validate layoutTwice =
      .ok ({ vlanTwice with Interfaces := ["eth0", "eth0", "v0"] },
           { layoutTwice with Child2Parent := [("eth0", ["v1", "v1"])] },
           some { Prefix := "vlan:v1",
                  msgs := [typeMsg vlanTwice (ifaceAt layoutTwice.Interfaces "v0")] })) ∧
    (mapGet layoutOffKey.Child2Parent "v0" = none ∧
     vlanOffKey.validate layoutOffKey =
      .ok (vlanOffKey,
           { layoutOffKey with Child2Parent := [("eth0", ["v1"]), ("v0", ["v2"])] },
           some { Prefix := "vlan:v2",
                  msgs := [typeMsg vlanOffKey (ifaceAt layoutOffKey.Interfaces "v0")] })) ∧
    (mapGet layoutOffKeyLegal.Child2Parent "eth1" = none ∧
     vlanOffKeyLegal.validate layoutOffKeyLegal =
      .ok (vlanOffKeyLegal,
           { layoutOffKeyLegal with
               Child2Parent := [("eth0", ["v1"]), ("eth1", ["v2", "v2"])] },
           some { Prefix := "vlan:v2",
                  msgs := [typeMsg vlanOffKeyLegal
                             (ifaceAt layoutOffKeyLegal.Interfaces "v0")] })) := by
  decide

/-- C11 (amended): the child-type rules. When a bond lists a defined child that
is not physical, a bridge lists a bridge, or a vlan lists a vlan,
`Interface.validate` returns an error holding the child-type message. The
`Child2Parent` entry of the offending child is left as it was, for a vlan
provided no other child it lists is defined with the offending child's name
as its `Name`. Every listed child that is defined, of a legal type and unowned
ends with `Child2Parent[child] = [I.Name]`, for a vlan provided that child is
listed once and no other listed child is defined with its name as its `Name`.
Both provisos on names hold when every defined child is stored under its own
`Name`. -/
theorem child_type_rules (I : Interface) (l : Layout) (X : String) (childX : Interface)
    (hI : I.Type_ = "bond" ∨ I.Type_ = "bridge" ∨ I.Type_ = "vlan")
    (hX : X ∈ I.Interfaces) (hXdef : mapGet l.Interfaces X = some childX)
    (hbad : Illegal I childX) :
    ∃ I' l' err, I.validate l = .ok (I', l', some err) ∧
      typeMsg I childX ∈ err.msgs ∧
      ((I.Type_ = "vlan" →
          ∀ c ∈ I.Interfaces, ∀ ch, mapGet l.Interfaces c = some ch → c ≠ X → ch.Name ≠ X) →
        mapGet l'.Child2Parent X = mapGet l.Child2Parent X) ∧
      ∀ Y, Y ∈ I.Interfaces → Legal I l.Interfaces Y → mapGet l.Child2Parent Y = none →
        (I.Type_ = "vlan" →
          (∀ c ∈ I.Interfaces, ∀ ch, mapGet l.Interfaces c = some ch → c ≠ Y →
            ch.Name ≠ Y) ∧
          I.Interfaces.count Y = 1) →
        mapGet l'.Child2Parent Y = some [I.Name] := by
  have hphys : I.Type_ ≠ "physical" := by
    rcases hI with h | h | h <;> rw [h] <;> decide
  obtain ⟨s1, hs1, _⟩ := forEach_ok
    (childStep { I with Interfaces := sortStrings I.Interfaces } l.Interfaces)
    (fun _ => True) (sortStrings I.Interfaces)
    (fun t x _ _ => by
      obtain ⟨t', ht'⟩ := childStep_returns
        { I with Interfaces := sortStrings I.Interfaces } l.Interfaces t x hI
      exact ⟨t', ht', trivial⟩)
    (l.Child2Parent, { Prefix := I.Type_ ++ ":" ++ I.MatchID }) trivial
  obtain ⟨hoff, hleg⟩ := childLoop_type_rules
    { I with Interfaces := sortStrings I.Interfaces } l.Interfaces (sortStrings I.Interfaces)
    (l.Child2Parent, { Prefix := I.Type_ ++ ":" ++ I.MatchID }) s1 hI hs1
  obtain ⟨hmsg, hkeep⟩ := hoff X childX ((mem_sortStrings _ _).mpr hX) hXdef hbad
  obtain ⟨c1, e1⟩ := s1
  refine ⟨{ I with Interfaces := sortStrings I.Interfaces },
    { l with Child2Parent := c1 }, e1, ?_, hmsg, ?_, ?_⟩
  · rw [validate_nonphysical I l hphys, hs1]
    simp only [OrNil_of_mem e1 _ hmsg]
  · intro hnames
    exact hkeep (fun hv c hc => hnames hv c ((mem_sortStrings _ _).mp hc))
  · intro Y hY hlegal hfree hone
    exact hleg Y ((mem_sortStrings _ _).mpr hY) hlegal hfree
      (fun hv => by
        obtain ⟨hnames, hcount⟩ := hone hv
        refine ⟨fun c hc => hnames c ((mem_sortStrings _ _).mp hc), ?_⟩
        rw [← hcount]
        exact (List.perm_insertionSort _ I.Interfaces).count_eq Y)

/-- C11 (amended) at a vlan listing the vlan `v0` and, once, the physical
`eth0`, in a Layout whose keys are names: `v0` is reported and gets no owner,
`eth0` ends owned by `[v1]`. -/
theorem child_type_rules_witness :
    ∃ I' l' err,
      Interface.validate
          { Type_ := "vlan", MatchID := "v1", Name := "v1", Interfaces := ["v0", "eth0"] }
          layoutTwice = .ok (I', l', some err) ∧
      typeMsg { Type_ := "vlan", MatchID := "v1", Name := "v1", Interfaces := ["v0", "eth0"] }
          (ifaceAt layoutTwice.Interfaces "v0") ∈ err.msgs ∧
      mapGet l'.Child2Parent "v0" = none ∧
      mapGet l'.Child2Parent "eth0" = some ["v1"] := by
  have hnames : ∀ q, ∀ c ∈ ["v0", "eth0"], ∀ ch,
      mapGet layoutTwice.Interfaces c = some ch → c ≠ q → ch.Name ≠ q :=
    fun q c _ ch hch hne heq => hne
      ((keysAreNames_of_forall layoutTwice.Interfaces (by decide) c ch hch).symm.trans heq)
  obtain ⟨I', l', err, hv, hmsg, hkeep, hleg⟩ := child_type_rules
    { Type_ := "vlan", MatchID := "v1", Name := "v1", Interfaces := ["v0", "eth0"] }
    layoutTwice "v0" (ifaceAt layoutTwice.Interfaces "v0")
    (Or.inr (Or.inr rfl)) (by decide) (by decide)
    (Or.inr (Or.inr ⟨by decide, by decide⟩))
  refine ⟨I', l', err, hv, hmsg, hkeep (fun _ => hnames "v0"), ?_⟩
  exact hleg "eth0" (by decide)
    ⟨ifaceAt layoutTwice.Interfaces "eth0", by decide, fun h => absurd h (by decide),
      fun h => absurd h (by decide), fun _ => by decide⟩
    (by decide) (fun _ => ⟨hnames "eth0", by decide⟩)

/-- C17 as stated fails: the bond `bondTwice` lists the unowned physical `eth0`
twice and `Interface.validate` returns an ownership-conflict error (the second
visit finds `eth0` owned by the bond itself); with `eth0` listed once it
returns no error. -/
theorem repeated_child_changes_error :
    bondTwice.validate layoutBondTwice =
      .ok (bondTwice, { layoutBondTwice with Child2Parent := [("eth0", ["b0"])] },
           some { Prefix := "bond:b0",
                  msgs := [conflictMsg (ifaceAt layoutBondTwice.Interfaces "eth0")
                             bondTwice bondTwice] }) ∧
    Interface.validate { bondTwice with Interfaces := bondTwice.Interfaces.dedup }
        layoutBondTwice =
      .ok ({ bondTwice with Interfaces := ["eth0"] },
           { layoutBondTwice with Child2Parent := [("eth0", ["b0"])] }, none) := by
  decide

/-- C17 (amended): for a bond or bridge, in every Layout state,
`Interface.validate` builds the same `Child2Parent` (the same value at every
key) from a child list with repeated names as from the list with each
repeated name listed once. -/
theorem repeated_child_same_owners (B : Interface) (l : Layout)
    (hB : B.Type_ = "bond" ∨ B.Type_ = "bridge") :
    ∃ B1 l1 e1 B2 l2 e2,
      B.validate l = .ok (B1, l1, e1) ∧
      Interface.validate { B with Interfaces := B.Interfaces.dedup } l = .ok (B2, l2, e2) ∧
      ∀ k, mapGet l1.Child2Parent k = mapGet l2.Child2Parent k := by
  have hphys : B.Type_ ≠ "physical" := by
    rcases hB with h | h <;> rw [h] <;> decide
  have hret : ∀ (s : List String), ∃ s1,
      forEach (childStep { B with Interfaces := sortStrings B.Interfaces } l.Interfaces)
        (l.Child2Parent, { Prefix := B.Type_ ++ ":" ++ B.MatchID }) s = .ok s1 := by
    intro s
    obtain ⟨s1, hs1, _⟩ := forEach_ok
      (childStep { B with Interfaces := sortStrings B.Interfaces } l.Interfaces)
      (fun _ => True) s
      (fun t x _ _ => by
        obtain ⟨t', ht', _⟩ := childStep_exclusive
          { B with Interfaces := sortStrings B.Interfaces } l.Interfaces t x hB
        exact ⟨t', ht', trivial⟩)
      (l.Child2Parent, { Prefix := B.Type_ ++ ":" ++ B.MatchID }) trivial
    exact ⟨s1, hs1⟩
  obtain ⟨s1, hs1⟩ := hret (sortStrings B.Interfaces)
  obtain ⟨s2, hs2⟩ := hret (sortStrings B.Interfaces.dedup)
  have hlook1 := forEach_exclusive_lookup
    { B with Interfaces := sortStrings B.Interfaces } l.Interfaces hB _ _ _ hs1
  have hlook2 := forEach_exclusive_lookup
    { B with Interfaces := sortStrings B.Interfaces } l.Interfaces hB _ _ _ hs2
  obtain ⟨c1, e1⟩ := s1
  obtain ⟨c2, e2⟩ := s2
  refine ⟨{ B with Interfaces := sortStrings B.Interfaces }, { l with Child2Parent := c1 },
    e1.OrNil, { B with Interfaces := sortStrings B.Interfaces.dedup },
    { l with Child2Parent := c2 }, e2.OrNil, ?_, ?_, ?_⟩
  · rw [validate_nonphysical B l hphys, hs1]
  · have hv := validate_nonphysical { B with Interfaces := B.Interfaces.dedup } l hphys
    simp only [] at hv
    rw [hv,
      childStep_congr { B with Interfaces := sortStrings B.Interfaces.dedup }
        { B with Interfaces := sortStrings B.Interfaces } rfl rfl, hs2]
  · intro k
    show mapGet c1 k = mapGet c2 k
    cases hk : mapGet l.Child2Parent k with
    | some ps => rw [(hlook1 k).1 ps hk, (hlook2 k).1 ps hk]
    | none =>
      by_cases hm : k ∈ sortStrings B.Interfaces ∧
          Legal { B with Interfaces := sortStrings B.Interfaces } l.Interfaces k
      · have hm2 : k ∈ sortStrings B.Interfaces.dedup ∧
            Legal { B with Interfaces := sortStrings B.Interfaces } l.Interfaces k :=
          ⟨(mem_sortStrings _ _).mpr
            (List.mem_dedup.mpr ((mem_sortStrings _ _).mp hm.1)), hm.2⟩
        rw [((hlook1 k).2 hk).1 hm, ((hlook2 k).2 hk).1 hm2]
      · have hm2 : ¬ (k ∈ sortStrings B.Interfaces.dedup ∧
            Legal { B with Interfaces := sortStrings B.Interfaces } l.Interfaces k) :=
          fun h => hm ⟨(mem_sortStrings _ _).mpr
            (List.mem_dedup.mp ((mem_sortStrings _ _).mp h.1)), h.2⟩
        rw [((hlook1 k).2 hk).2 hm, ((hlook2 k).2 hk).2 hm2]

/-- C17 (amended) at the bond `bondTwice`, which lists `eth0` twice. -/
theorem repeated_child_same_owners_witness :
    ∃ B1 l1 e1 B2 l2 e2,
      bondTwice.validate layoutBondTwice = .ok (B1, l1, e1) ∧
      Interface.validate { bondTwice with Interfaces := bondTwice.Interfaces.dedup }
          layoutBondTwice = .ok (B2, l2, e2) ∧
      ∀ k, mapGet l1.Child2Parent k = mapGet l2.Child2Parent k :=
  repeated_child_same_owners bondTwice layoutBondTwice (Or.inl rfl)

end util
